import Mathlib

/-!
Verification development for the ampullator block-processing graph core.

The graph layer (graph.rs together with the generators of ugen_core.rs that
the structural claims exercise) is embedded over exact rationals: the f32
sample arithmetic used by UGConst, UGSum and UGWhite consists of loads,
stores and elementwise combination whose control flow never branches on
rounding, so an exact field is a faithful carrier for the structural and
determinism properties below.  Rust panics (index out of bounds, duplicate
names, duplicate connections, division by zero) are modelled as the error
case of Except.  The numeric unit-generator layer (util.rs unitrate_to_hz
and the two UGEnvAR variants) is embedded over the real numbers, with f32
transcendentals idealised as their real counterparts.
-/

namespace Ampullator

deriving instance DecidableEq for Except

/-- Sample is f32 in the source (util.rs); idealised as an exact field here. -/
abbrev Sample := ℚ

/-- Modelled from the spec: the pseudo-random source of UGWhite is the rand
crate StdRng, external to src/.  Per the spec, all pseudo-randomness flows
through explicitly seeded generators owned by individual nodes; the exact
stream does not matter to any claim, so the generator is modelled as a
deterministic mix of the seed and a draw counter. -/
structure StdRng where
  seed : ℕ
  cnt : ℕ
deriving DecidableEq, Repr

/-- Modelled from the spec: StdRng.seed_from_u64 builds the deterministic
state from an explicit 64-bit seed. -/
def StdRng.seed_from_u64 (s : ℕ) : StdRng :=
  { seed := s % 2 ^ 64, cnt := 0 }

/-- Modelled from the spec: one deterministic 64-bit draw from the seeded
stream. -/
def StdRng.nextRaw (r : StdRng) : ℕ × StdRng :=
  ((r.seed * 6364136223846793005 + r.cnt * 1442695040888963407 + 1) % 2 ^ 64,
   { r with cnt := r.cnt + 1 })

/-- Modelled from the spec: rng.random_range(lo..=hi), a deterministic sample
in the closed range.  The source panics when lo > hi; no claim exercises that
case and the model stays total there. -/
def StdRng.random_range (r : StdRng) (lo hi : Sample) : Sample × StdRng :=
  let (u, r2) := r.nextRaw
  (lo + (hi - lo) * (u : ℚ) / (2 ^ 64 : ℚ), r2)

/-- The closed set of unit generators the structural claims exercise
(ugen_core.rs UGConst, UGSum, UGWhite).  The white variant carries its rng
state and the optional user seed exactly as the Rust struct does. -/
inductive UG where
  | const (value : Sample)
  | sum (input_count : ℕ)
  | white (default_min default_max : Sample) (rng : StdRng) (seed : Option ℕ)
deriving DecidableEq, Repr

instance : Inhabited UG := ⟨.const 0⟩

/-- UGen::input_names for each embedded generator (ugen_core.rs).  UGSum
labels its inputs in1..inN. -/
def UG.input_names : UG → List String
  | .const _ => []
  | .sum m => (List.range m).map (fun i => "in" ++ toString (i + 1))
  | .white _ _ _ _ => ["min", "max"]

/-- UGen::output_names for each embedded generator (ugen_core.rs). -/
def UG.output_names : UG → List String
  | .const _ => ["out"]
  | .sum _ => ["out"]
  | .white _ _ _ _ => ["out"]

/-- UGen::default_input: the trait default returns None; UGWhite overrides
min and max (ugen_core.rs).  UGSum keeps the trait default of None. -/
def UG.default_input : UG → String → Option Sample
  | .const _, _ => none
  | .sum _, _ => none
  | .white dmin dmax _ _, s =>
    if s = "min" then some dmin else if s = "max" then some dmax else none

/-- Reads l[i], erroring like a Rust slice index out of bounds. -/
def idxq (l : List Sample) (i : ℕ) : Except String Sample :=
  match l[i]? with
  | some x => .ok x
  | none => .error "index out of bounds"

/-- The per-block loop of UGWhite::process (ugen_core.rs): each sample draws
from the owned rng inside min..=max taken per sample from the inputs with
the declared defaults. -/
def whiteBlock (minIn maxIn : List Sample) (dmin dmax : Sample) (rng : StdRng)
    (len : ℕ) : List Sample × StdRng :=
  (List.range len).foldl
    (fun (acc : List Sample × StdRng) i =>
      let mn := minIn.getD i dmin
      let mx := maxIn.getD i dmax
      let (v, r2) := acc.2.random_range mn mx
      (acc.1 ++ [v], r2))
    ([], rng)

/-- UGen::process for the embedded generators (ugen_core.rs).  The outputs
argument carries the previous block buffers exactly as the &mut slices do;
every generator overwrites buffer 0 elementwise.  UGSum::process indexes its
input slices directly (a[i], b[i], input[i]) with no default substitution,
so an empty slice makes it fail exactly where Rust panics. -/
def UG.process (u : UG) (inputs : List (List Sample)) (outs : List (List Sample))
    (_sample_rate : Sample) (_time_sample : ℕ) :
    Except String (List (List Sample) × UG) :=
  match u with
  | .const v =>
    match outs[0]? with
    | none => .error "index out of bounds"
    | some o => .ok (outs.set 0 (o.map fun _ => v), .const v)
  | .sum m =>
    match outs[0]? with
    | none => .error "index out of bounds"
    | some o =>
      let len := o.length
      (if inputs.length = 2 then
        match inputs with
        | a :: b :: _ =>
          (List.range len).mapM (fun i => do pure ((← idxq a i) + (← idxq b i)))
        | _ => .error "index out of bounds"
      else
        (List.range len).mapM
          (fun i => inputs.foldlM (fun acc ain => do pure (acc + (← idxq ain i))) (0 : Sample))
      ).map (fun newOut => (outs.set 0 newOut, .sum m))
  | .white dmin dmax rng seed =>
    match outs[0]? with
    | none => .error "index out of bounds"
    | some o =>
      let minIn := inputs.getD 0 []
      let maxIn := inputs.getD 1 []
      let (newOut, rng2) := whiteBlock minIn maxIn dmin dmax rng o.length
      .ok (outs.set 0 newOut, .white dmin dmax rng2 seed)

/-- NodeEdge (graph.rs): source node, output index in the source, input index
in the destination. -/
structure NodeEdge where
  src : ℕ
  output_index : ℕ
  input_index : ℕ
deriving DecidableEq, Repr

/-- GraphNode (graph.rs): id (storage position), name, generator, unsorted
incoming edges, one buffer per declared output.  The name to output index
map of the source is a derived cache of output_names and is realised here by
positional lookup. -/
structure GraphNode where
  id : ℕ
  name : String
  ug : UG
  inputs : List NodeEdge
  outputs : List (List Sample)
deriving DecidableEq, Repr

instance : Inhabited GraphNode := ⟨⟨0, "", default, [], []⟩⟩

/-- GenGraph (graph.rs): node storage, name to NodeId map (an association
list standing for the HashMap, most recent insertion first), sample rate,
block size, absolute sample-time counter.  There is no cached execution
order field: the source struct has none. -/
structure GenGraph where
  nodes : List GraphNode
  name_to_node_id : List (String × ℕ)
  sample_rate : Sample
  buffer_size : ℕ
  time_sample : ℕ
deriving DecidableEq, Repr

/-- GenGraph::new (graph.rs). -/
def GenGraph.new (sample_rate : Sample) (buffer_size : ℕ) : GenGraph :=
  { nodes := [], name_to_node_id := [], sample_rate := sample_rate,
    buffer_size := buffer_size, time_sample := 0 }

/-- HashMap key lookup on the association list model. -/
def lookupName : List (String × ℕ) → String → Option ℕ
  | [], _ => none
  | (k, v) :: rest, s => if k = s then some v else lookupName rest s

/-- GenGraph::add_node (graph.rs): id is the storage position; a duplicate
name panics before any mutation, otherwise the map gains the name and a new
GraphNode with zeroed per-output buffers of the block size is pushed.  The
panic is modelled as an error paired with the untouched graph. -/
def GenGraph.add_node (g : GenGraph) (name : String) (node : UG) :
    Except String ℕ × GenGraph :=
  let id := g.nodes.length
  let output_count := node.output_names.length
  if (lookupName g.name_to_node_id name).isSome then
    (.error "Node name already exists.", g)
  else
    (.ok id,
     { g with
       name_to_node_id := (name, id) :: g.name_to_node_id,
       nodes := g.nodes ++
         [{ id := id, name := name, ug := node, inputs := [],
            outputs := List.replicate output_count
              (List.replicate g.buffer_size (0 : Sample)) }] })

/-- GenGraph::connect_ids (graph.rs): with a valid destination, a second
edge naming an already connected input index panics (modelled as an error
paired with the untouched graph); otherwise the edge is appended to the
destination node.  An out-of-range destination is silently ignored, exactly
as the if-let in the source. -/
def GenGraph.connect_ids (g : GenGraph) (src output_index dst input_index : ℕ) :
    Except String Unit × GenGraph :=
  match g.nodes[dst]? with
  | none => (.ok (), g)
  | some dst_node =>
    if dst_node.inputs.any (fun e => e.input_index = input_index) then
      (.error "Input is already connected. Only one connection per input is allowed.", g)
    else
      let dst_node2 :=
        { dst_node with inputs := dst_node.inputs ++
            [⟨src, output_index, input_index⟩] }
      (.ok (), { g with nodes := g.nodes.set dst dst_node2 })

/-- util.rs split_name / rsplit_once on the dot: everything before the last
dot and everything after it; none models the panic on a label without a
dot. -/
def split_name (s : String) : Option (String × String) :=
  let r := s.data.reverse
  match r.findIdx? (fun c => c = '.') with
  | none => none
  | some k => some (String.mk ((r.drop (k + 1)).reverse), String.mk ((r.take k).reverse))

/-- GenGraph::connect (graph.rs): parse both labels, resolve node names and
port names (each failure is a panic in the source, an error here), then
delegate to connect_ids. -/
def GenGraph.connect (g : GenGraph) (src dst : String) :
    Except String Unit × GenGraph :=
  match split_name src, split_name dst with
  | some (src_name, output_name), some (dst_name, input_name) =>
    match lookupName g.name_to_node_id dst_name, lookupName g.name_to_node_id src_name with
    | some dst_id, some src_id =>
      match g.nodes[dst_id]?, g.nodes[src_id]? with
      | some dst_node, some src_node =>
        match dst_node.ug.input_names.findIdx? (fun nm => nm = input_name),
              src_node.ug.output_names.findIdx? (fun nm => nm = output_name) with
        | some input_index, some output_index =>
          g.connect_ids src_id output_index dst_id input_index
        | _, _ => (.error "invalid input or output name", g)
      | _, _ => (.error "index out of bounds", g)
    | _, _ => (.error "key not found", g)
  | _, _ => (.error "Expected name.port", g)

/-- The indegree vector of GenGraph::get_execution_node_ids (graph.rs):
start from zeros and write each node its edge count at its id. -/
def initIndegree (nodes : List GraphNode) : List ℕ :=
  nodes.foldl (fun acc nd => acc.set nd.id nd.inputs.length)
    (List.replicate nodes.length 0)

/-- The inner relaxation of the Kahn loop (graph.rs): for every edge of the
target whose source is the popped node, decrement the target indegree and
enqueue the target when it reaches zero. -/
def relaxTarget (nid : ℕ) (target : GraphNode) (st : List ℕ × List ℕ) :
    List ℕ × List ℕ :=
  target.inputs.foldl
    (fun st e =>
      if e.src = nid then
        let indeg := st.1.set target.id (st.1.getD target.id 0 - 1)
        if indeg.getD target.id 0 = 0 then (indeg, st.2 ++ [target.id])
        else (indeg, st.2)
      else st)
    st

/-- One popped node relaxed against every node of the graph (graph.rs). -/
def relaxAll (nodes : List GraphNode) (nid : ℕ) (st : List ℕ × List ℕ) :
    List ℕ × List ℕ :=
  nodes.foldl (fun st target => relaxTarget nid target st) st

/-- The Kahn work loop of GenGraph::get_execution_node_ids (graph.rs),
written with fuel: the source loop pops until the queue is empty, and one
unit of fuel per registered node is enough because no node is ever enqueued
twice (proved below). -/
def kahnRun (nodes : List GraphNode) : ℕ → List ℕ → List ℕ → List ℕ → List ℕ
  | 0, _, _, order => order
  | _ + 1, _, [], order => order
  | fuel + 1, indeg, nid :: rest, order =>
    let st := relaxAll nodes nid (indeg, rest)
    kahnRun nodes fuel st.1 st.2 (order ++ [nid])

/-- GenGraph::get_execution_node_ids (graph.rs): Kahn topological sort
seeded with every zero-indegree node, in id order. -/
def GenGraph.get_execution_node_ids (g : GenGraph) : List ℕ :=
  let indegree := initIndegree g.nodes
  let queue := (List.range g.nodes.length).filter (fun i => indegree.getD i 0 = 0)
  kahnRun g.nodes g.nodes.length indegree queue []

/-- The input gathering step of GenGraph::process (graph.rs): one slice per
declared input, empty by default, each edge overwriting the slice at its
input index with the source output buffer.  The source indexes left/rest
slices so a self edge or an out-of-range source or index panics. -/
def gatherInputs (nodes : List GraphNode) (node_index : ℕ) (nd : GraphNode) :
    Except String (List (List Sample)) :=
  nd.inputs.foldlM
    (fun acc e =>
      if e.src = node_index then .error "index out of bounds"
      else
        match nodes[e.src]? with
        | none => .error "index out of bounds"
        | some src_node =>
          match src_node.outputs[e.output_index]? with
          | none => .error "index out of bounds"
          | some buf =>
            if e.input_index < acc.length then .ok (acc.set e.input_index buf)
            else .error "index out of bounds")
    (List.replicate nd.ug.input_names.length ([] : List Sample))

/-- One node of the block-processing loop (graph.rs GenGraph::process):
gather inputs, run the generator on its own buffers, store the new buffers
and generator state back at the node position. -/
def processNode (nodes : List GraphNode) (sample_rate : Sample) (time_sample : ℕ)
    (nid : ℕ) : Except String (List GraphNode) :=
  match nodes[nid]? with
  | none => .error "valid index"
  | some nd => do
    let ins ← gatherInputs nodes nid nd
    let r ← nd.ug.process ins nd.outputs sample_rate time_sample
    pure (nodes.set nid { nd with ug := r.2, outputs := r.1 })

/-- GenGraph::process (graph.rs): every node of the execution order in turn,
then the time counter advances by one block. -/
def GenGraph.process (g : GenGraph) : Except String GenGraph := do
  let order := g.get_execution_node_ids
  let nodes2 ← order.foldlM
    (fun ns nid => processNode ns g.sample_rate g.time_sample nid) g.nodes
  pure { g with nodes := nodes2, time_sample := g.time_sample + g.buffer_size }

/-- n successive process calls. -/
def processN (g : GenGraph) : ℕ → Except String GenGraph
  | 0 => .ok g
  | n + 1 => do processN (← g.process) n

/-- GenGraph::get_output_named (graph.rs): split the label, resolve the node
by name and the output by position, return that buffer; every resolution
failure panics in the source. -/
def GenGraph.get_output_named (g : GenGraph) (name : String) :
    Except String (List Sample) :=
  match split_name name with
  | none => .error "Expected name.port"
  | some (node_name, output_name) =>
    match lookupName g.name_to_node_id node_name with
    | none => .error "key not found"
    | some nid =>
      match g.nodes[nid]? with
      | none => .error "index out of bounds"
      | some nd =>
        match nd.ug.output_names.findIdx? (fun nm => nm = output_name) with
        | none => .error "Invalid output name"
        | some idx =>
          match nd.outputs[idx]? with
          | none => .error "index out of bounds"
          | some buf => .ok buf

/-- GenGraph::get_outputs (graph.rs): every node in execution order
contributes one (nodeName.outputName, buffer) pair per declared output.
The buffer index is always in range for graphs built by the api (the source
indexes directly). -/
def GenGraph.get_outputs (g : GenGraph) : List (String × List Sample) :=
  g.get_execution_node_ids.foldl
    (fun acc nid =>
      match g.nodes[nid]? with
      | none => acc
      | some nd =>
        acc ++ nd.ug.output_names.enum.map
          (fun (p : ℕ × String) => (nd.name ++ "." ++ p.2, nd.outputs.getD p.1 [])))
    []

/-- GenGraph::get_output_names (graph.rs): the labels of get_outputs. -/
def GenGraph.get_output_names (g : GenGraph) : List String :=
  (g.get_outputs).map (fun p => p.1)

/-- Modelled from the spec: the recorder calls graph.get_output_by_label,
which is missing from src/; per spec section 6 it is the output query that
returns the current block samples of a node.output label, i.e. exactly
get_output_named of graph.rs. -/
def GenGraph.get_output_by_label (g : GenGraph) (label : String) :
    Except String (List Sample) :=
  g.get_output_named label

/-- Modelled from the spec: the recorder calls graph.get_node_output_names,
missing from src/; per spec section 6 it is the ordered label query, i.e.
get_output_names of graph.rs. -/
def GenGraph.get_node_output_names (g : GenGraph) : List String :=
  g.get_output_names

/-- Recorder (recorder.rs): captured per-label sample sequences plus the
ordered labels.  The HashMap is modelled as an association list. -/
structure Recorder where
  sample_rate : Sample
  recorded : List (String × List Sample)
  output_names : List String
deriving DecidableEq, Repr

/-- HashMap::insert of an empty vec keyed by label: a later insert of the
same key replaces the (identical, empty) value, so keys end up
deduplicated. -/
def insertEmptyKey (m : List (String × List Sample)) (k : String) :
    List (String × List Sample) :=
  if m.any (fun p => p.1 = k) then m else m ++ [(k, [])]

/-- Recorder::from_samples (recorder.rs): collect the requested labels (all
current output labels when omitted), run ceil(total/blockSize) blocks
appending every collected label buffer, then truncate every sequence to the
requested total.  A zero block size makes the ceiling division panic in the
source and is an error here. -/
def Recorder.from_samples (g0 : GenGraph) (output_labels : Option (List String))
    (total_samples : ℕ) : Except String Recorder := do
  let sample_rate := g0.sample_rate
  let buffer_size := g0.buffer_size
  let labelsRaw :=
    match output_labels with
    | some ls => ls
    | none => (g0.get_outputs).map (fun (p : String × List Sample) => p.1)
  let recorded0 := labelsRaw.foldl insertEmptyKey []
  if buffer_size = 0 then
    .error "attempt to divide by zero"
  else do
    let iterations := (total_samples + buffer_size - 1) / buffer_size
    let st ← (List.range iterations).foldlM
      (fun (st : GenGraph × List (String × List Sample)) _ => do
        let g2 ← st.1.process
        let rec2 ← st.2.mapM
          (fun lb => do pure (lb.1, lb.2 ++ (← g2.get_output_by_label lb.1)))
        pure (g2, rec2))
      (g0, recorded0)
    pure { sample_rate := sample_rate,
           recorded := st.2.map (fun lb => (lb.1, lb.2.take total_samples)),
           output_names := st.1.get_node_output_names }

/-- Recorder::get_shape (recorder.rs): channel count and the maximum
captured length (0 when nothing was captured). -/
def Recorder.get_shape (r : Recorder) : ℕ × ℕ :=
  (r.recorded.length, (r.recorded.map (fun lb => lb.2.length)).foldr max 0)

/-- The edge relation of a graph: an edge from src to dst is an entry of the
destination node input list. -/
def EdgeRel (g : GenGraph) (src dst : ℕ) : Prop :=
  ∃ nd, g.nodes[dst]? = some nd ∧ ∃ e ∈ nd.inputs, e.src = src

/-- A graph is acyclic when no node reaches itself through a nonempty edge
path. -/
def Acyclic (g : GenGraph) : Prop :=
  ∀ i, ¬ Relation.TransGen (EdgeRel g) i i

/-- A node participates in a dependency cycle when it reaches itself through
a nonempty edge path. -/
def OnCycle (g : GenGraph) (nid : ℕ) : Prop :=
  Relation.TransGen (EdgeRel g) nid nid

/-- Wellformedness of a graph state, as established by new, add_node and
connect: ids are storage positions, edge sources are registered, names are
unique, the name map mirrors the nodes, and every node owns one block-sized
buffer per declared output. -/
@[reducible] def WF (g : GenGraph) : Prop :=
  (∀ i < g.nodes.length, (g.nodes.getD i default).id = i) ∧
  (∀ nd ∈ g.nodes, ∀ e ∈ nd.inputs, e.src < g.nodes.length) ∧
  (g.nodes.map (fun nd => nd.name)).Nodup ∧
  g.name_to_node_id = (g.nodes.map (fun nd => (nd.name, nd.id))).reverse ∧
  (∀ nd ∈ g.nodes,
    nd.outputs.length = nd.ug.output_names.length ∧
    ∀ b ∈ nd.outputs, b.length = g.buffer_size)

/-- The declared output labels of the whole graph: one per output name of
every registered node (spec section 6, numberOfDeclaredOutputs). -/
def totalOutputCount (g : GenGraph) : ℕ :=
  (g.nodes.map (fun nd => nd.ug.output_names.length)).sum

/-- The full output-buffer contents of a graph, the observable the
determinism claim compares bit for bit. -/
def outputsOf (g : GenGraph) : List (List (List Sample)) :=
  g.nodes.map (fun nd => nd.outputs)

/-- The sum arity of a generator: Some for UGSum, None otherwise.  Block
processing replaces a node's generator state but never changes which
variant it is; this projection makes that invariant expressible. -/
def sumArity : UG → Option ℕ
  | .sum m => some m
  | _ => none

/-- The structural skeleton of a node: everything GenGraph::process and the
scheduler read that a processing step never rewrites (only the generator
state and the output buffers change). -/
def nodeShape (nd : GraphNode) :
    ℕ × String × List NodeEdge × List String × List String × Option ℕ :=
  (nd.id, nd.name, nd.inputs, nd.ug.output_names, nd.ug.input_names,
   sumArity nd.ug)

/-- Invariant of the node store across block processing, relative to the
initial graph: the structural skeleton is untouched and every output buffer
stays one full block long. -/
def NodesInv (g0 : GenGraph) (ns : List GraphNode) : Prop :=
  ns.map nodeShape = g0.nodes.map nodeShape ∧
  ∀ nd ∈ ns, nd.outputs.length = nd.ug.output_names.length ∧
    ∀ b ∈ nd.outputs, b.length = g0.buffer_size

/-- Invariant of a whole graph state across repeated process() calls,
relative to the initial graph. -/
def GraphInv (g0 g : GenGraph) : Prop :=
  g.buffer_size = g0.buffer_size ∧
  g.name_to_node_id = g0.name_to_node_id ∧
  NodesInv g0 g.nodes

/-- Generator construction parameters for the determinism claim; the white
seed is the explicitly supplied Some seed of UGWhite::new. -/
inductive UGSpec where
  | const (value : Sample)
  | sum (input_count : ℕ)
  | white (seed : ℕ)
deriving DecidableEq, Repr

/-- UGSpec.build instantiates the generator exactly as the constructors do
(UGWhite::new with Some seed seeds StdRng from it and records the seed). -/
def UGSpec.build : UGSpec → UG
  | .const v => .const v
  | .sum m => .sum m
  | .white s => .white (-1) 1 (StdRng.seed_from_u64 s) (some s)

/-- One graph-building call: add_node or connect. -/
inductive BuildCmd where
  | addNode (name : String) (spec : UGSpec)
  | connect (src dst : String)
deriving DecidableEq, Repr

/-- Replay a sequence of add_node and connect calls on a fresh graph,
propagating any build-time failure. -/
def buildGraph (sample_rate : Sample) (buffer_size : ℕ) (cmds : List BuildCmd) :
    Except String GenGraph :=
  cmds.foldlM
    (fun g c =>
      match c with
      | .addNode name spec =>
        match g.add_node name spec.build with
        | (.ok _, g2) => .ok g2
        | (.error e, _) => .error e
      | .connect s d =>
        match g.connect s d with
        | (.ok _, g2) => .ok g2
        | (.error e, _) => .error e)
    (GenGraph.new sample_rate buffer_size)

/-- UnitRate (util.rs): the unit of a rate value. -/
inductive UnitRate where
  | Hz | Seconds | Samples | Midi | Bpm
deriving DecidableEq, Repr

/-- util.rs unitrate_to_hz over idealised reals: Hz is the identity, Seconds
and Samples invert with an explicit zero guard, Midi is 440 times 2 to the
(x - 69)/12, Bpm divides by 60.  The f32 powf is idealised as the real
rpow. -/
noncomputable def unitrate_to_hz (value : ℝ) (mode : UnitRate) (sample_rate : ℝ) : ℝ :=
  match mode with
  | .Hz => value
  | .Seconds => if value ≠ 0 then 1 / value else 0
  | .Samples => if value ≠ 0 then sample_rate / value else 0
  | .Midi => 440 * (2 : ℝ) ^ ((value - 69) / 12)
  | .Bpm => value / 60

/-- The per-sample conversion exactly as the spec words it, for comparison
with the source translation. -/
noncomputable def spec_unit_conversion (mode : UnitRate) (sample_rate x : ℝ) : ℝ :=
  match mode with
  | .Hz => x
  | .Seconds => if x = 0 then 0 else 1 / x
  | .Samples => if x = 0 then 0 else sample_rate / x
  | .Midi => 440 * (2 : ℝ) ^ ((x - 69) / 12)
  | .Bpm => x / 60

/-- UGAsHz::process (ugen_core.rs): the output block applies unitrate_to_hz
elementwise to the input block, reading missing input samples as 0. -/
noncomputable def asHzBlock (mode : UnitRate) (sample_rate : ℝ) (input : List ℝ)
    (len : ℕ) : List ℝ :=
  (List.range len).map (fun i => unitrate_to_hz (input.getD i 0) mode sample_rate)

/-- Envelope stage (both UGEnvAR variants). -/
inductive EnvPhase where
  | Idle | Attack | Release
deriving DecidableEq, Repr

/-- dur.max(1.0).round() as an unsigned count (ugen_core.rs UGEnvAR): after
the max with 1 the argument is at least 1, where the f32 round (half away
from zero) is floor of x + 1/2 and the usize cast is exact. -/
noncomputable def durUsize (a : ℝ) : ℕ :=
  (Int.floor (max a 1 + 1 / 2)).toNat

/-- dur.max(1.0).round() as i32 (ugen_env.rs UGEnvAR). -/
noncomputable def durI32 (a : ℝ) : ℤ :=
  Int.floor (max a 1 + 1 / 2)

/-- The UGEnvAR state of ugen_core.rs: level, stage, stage endpoints, stage
length and remaining countdown (usize), curve, and the previous trigger
level used for rising-edge detection. -/
structure EnvARCore where
  current : ℝ
  phase : EnvPhase
  start : ℝ
  target : ℝ
  total_samples : ℕ
  remaining_samples : ℕ
  curve : ℝ
  triggered_last : Bool

/-- UGEnvAR::new (ugen_core.rs). -/
noncomputable def envarCoreInit : EnvARCore :=
  { current := 0, phase := .Idle, start := 0, target := 1, total_samples := 0,
    remaining_samples := 0, curve := 1, triggered_last := false }

/-- The restart assignments of the trigger branch of UGEnvAR::process
(ugen_core.rs): begin an Attack from the current level toward 1 over the
rounded attack duration with the clamped attack curve. -/
noncomputable def envarCoreRestart (st : EnvARCore) (att acurve : ℝ) : EnvARCore :=
  { st with phase := .Attack, start := st.current, target := 1,
            total_samples := durUsize att, remaining_samples := durUsize att,
            curve := max acurve (1 / 1000) }

/-- The countdown part of one sample of UGEnvAR::process (ugen_core.rs),
after the trigger handling: update triggered_last, then if samples remain,
shape the progress (using remaining - 1 so progress reaches 1 on the last
stage sample), advance the level, decrement, and on reaching zero switch
Attack to Release (re-arming from the release inputs) or Release to Idle at
level 0. -/
noncomputable def envarCoreCountdown (st0 : EnvARCore) (trig rel rcurve : ℝ) :
    ℝ × EnvARCore :=
  let st := { st0 with triggered_last := decide (trig > 0.5) }
  let st3 :=
    if st.remaining_samples > 0 then
      let progress : ℝ :=
        if st.remaining_samples > 1 then
          1 - (((st.remaining_samples - 1 : ℕ) : ℝ) / (st.total_samples : ℝ))
        else 1
      let shaped :=
        if |st.curve - 1| < 1 / 1000000 then progress
        else 1 - Real.exp (-st.curve * progress)
      let st2 := { st with
        current := st.start + (st.target - st.start) * shaped,
        remaining_samples := st.remaining_samples - 1 }
      if st2.remaining_samples = 0 then
        match st2.phase with
        | .Attack =>
          { st2 with phase := .Release, start := st2.current, target := 0,
                     total_samples := durUsize rel, remaining_samples := durUsize rel,
                     curve := max rcurve (1 / 1000) }
        | .Release => { st2 with phase := .Idle, current := 0 }
        | .Idle => st2
      else st2
    else st
  (st3.current, st3)

/-- One sample of UGEnvAR::process (ugen_core.rs): a rising edge (trigger
above 0.5 while triggered_last is false) restarts the Attack stage, then the
countdown runs. -/
noncomputable def envarCoreStep (st : EnvARCore) (trig att rel acurve rcurve : ℝ) :
    ℝ × EnvARCore :=
  let is_triggered := trig > 0.5
  let trigger_now := is_triggered ∧ st.triggered_last = false
  let st1 := if trigger_now then envarCoreRestart st att acurve else st
  envarCoreCountdown st1 trig rel rcurve

/-- The UGEnvAR state of ugen_env.rs: like the core variant but with i32
stage counters and no triggered_last field. -/
structure EnvAREnv where
  current : ℝ
  phase : EnvPhase
  start : ℝ
  target : ℝ
  stage_total : ℤ
  stage_remain : ℤ
  curve : ℝ

/-- UGEnvAR::new (ugen_env.rs). -/
noncomputable def envarEnvInit : EnvAREnv :=
  { current := 0, phase := .Idle, start := 0, target := 1, stage_total := 0,
    stage_remain := 0, curve := 1 }

/-- The countdown part of one sample of UGEnvAR::process (ugen_env.rs):
whenever stage_remain is nonnegative, shape progress = 1 - remain/total,
advance the level, decrement, and on dropping below zero switch stage.
Division follows the real-number convention; the f32 source would produce
NaN when stage_total is 0, a case no statement below reaches. -/
noncomputable def envarEnvCountdown (st : EnvAREnv) (rel rcurve : ℝ) :
    ℝ × EnvAREnv :=
  let st3 :=
    if st.stage_remain ≥ 0 then
      let progress : ℝ := 1 - ((st.stage_remain : ℝ) / (st.stage_total : ℝ))
      let shaped :=
        if |st.curve - 1| < 1 / 1000000 then progress
        else 1 - Real.exp (-st.curve * progress)
      let st2 := { st with
        current := st.start + (st.target - st.start) * shaped,
        stage_remain := st.stage_remain - 1 }
      if st2.stage_remain < 0 then
        match st2.phase with
        | .Attack =>
          { st2 with phase := .Release, start := st2.current, target := 0,
                     stage_total := durI32 rel, stage_remain := durI32 rel,
                     curve := max rcurve (1 / 1000) }
        | .Release => { st2 with phase := .Idle, current := 0 }
        | .Idle => st2
      else st2
    else st
  (st3.current, st3)

/-- One sample of UGEnvAR::process (ugen_env.rs): any sample whose trigger
is above 0.5 restarts the Attack stage (there is no edge detection in this
variant), then the countdown runs. -/
noncomputable def envarEnvStep (st : EnvAREnv) (trig att rel acurve rcurve : ℝ) :
    ℝ × EnvAREnv :=
  let trigger_now := trig > 0.5
  let st1 :=
    if trigger_now then
      { st with phase := .Attack, start := st.current, target := 1,
                stage_total := durI32 att, stage_remain := durI32 att,
                curve := max acurve (1 / 1000) }
    else st
  envarEnvCountdown st1 rel rcurve

/-- The sources of the in-edges of the node stored at position j. -/
def srcsAt (nodes : List GraphNode) (j : ℕ) : List ℕ :=
  (nodes.getD j default).inputs.map (fun e => e.src)

/-- The number of in-edges of the node at position j whose source has not
yet been appended to the order: the quantity the indegree vector tracks
during the Kahn loop. -/
def pending (nodes : List GraphNode) (done : List ℕ) (j : ℕ) : ℕ :=
  (srcsAt nodes j).countP (fun s => decide (s ∉ done))

/-- The number of edges of an edge list whose source is the popped node. -/
def matchCnt (l : List NodeEdge) (nid : ℕ) : ℕ :=
  l.countP (fun e => decide (e.src = nid))

/-- The loop invariant of the Kahn traversal: the indegree vector tracks
pending counts relative to the emitted order, queue and order are disjoint
lists of registered positions, queued and emitted nodes have no pending
edges, untouched nodes always do, and every emitted node sees all its edge
sources strictly earlier in the order. -/
structure KahnInv (nodes : List GraphNode) (D Q order : List ℕ) : Prop where
  dlen : D.length = nodes.length
  nodup : (order ++ Q).Nodup
  mem_lt : ∀ x ∈ order ++ Q, x < nodes.length
  dval : ∀ j < nodes.length, D.getD j 0 = pending nodes order j
  q_zero : ∀ j ∈ Q, pending nodes order j = 0
  pop_zero : ∀ j ∈ order, pending nodes order j = 0
  complete : ∀ j < nodes.length, j ∉ order → j ∉ Q → pending nodes order j ≠ 0
  edges_before : ∀ d ∈ order, ∀ s ∈ srcsAt nodes d,
    s ∈ order ∧ order.indexOf s < order.indexOf d

/-- Concrete fixture: a two-node chain, a constant node feeding the min
input of a seeded white-noise node. -/
def wgChain : GenGraph :=
  ((((GenGraph.new 8 2).add_node "a" (.const 1)).2.add_node "w"
      (.white (-1) 1 (StdRng.seed_from_u64 42) (some 42))).2.connect "a.out" "w.min").2

/-- Concrete fixture: two unconnected constant nodes. -/
def wgTwo : GenGraph :=
  (((GenGraph.new 8 2).add_node "a" (.const 1)).2.add_node "b" (.const 2)).2

/-- Concrete fixture: two seeded white-noise nodes wired into a two-node
dependency cycle. -/
def wgCycle : GenGraph :=
  (((((GenGraph.new 8 4).add_node "w1"
        (.white (-1) 1 (StdRng.seed_from_u64 1) (some 1))).2.add_node "w2"
        (.white (-1) 1 (StdRng.seed_from_u64 2) (some 2))).2.connect
      "w1.out" "w2.min").2.connect "w2.out" "w1.min").2

/-- Concrete fixture: a build script with an explicitly seeded white-noise
generator. -/
def c2cmds : List BuildCmd :=
  [.addNode "n1" (.white 42), .addNode "c1" (.const 1), .connect "c1.out" "n1.min"]

/-- The graph produced by replaying c2cmds. -/
def wgBuilt : GenGraph :=
  ((buildGraph 8 2 c2cmds).toOption).getD (GenGraph.new 8 2)

/-- Concrete fixture: a constant node feeding in1 of a two-input UGSum whose
in2 is left unconnected, block size 2. -/
def wgSumPartial : GenGraph :=
  ((((GenGraph.new 8 2).add_node "a" (.const 1)).2.add_node "s"
      (.sum 2)).2.connect "a.out" "s.in1").2

end Ampullator

namespace Ampullator

/-! Theorems.  Helper lemmas come first, then one theorem (with witness or
counterexample) per claim. -/

lemma durI32_four : durI32 4 = 4 := by
  unfold durI32
  norm_num

lemma envStep1 : envarEnvStep envarEnvInit 1 4 8 1 1 =
    (0, { current := 0, phase := .Attack, start := 0, target := 1,
          stage_total := 4, stage_remain := 3, curve := 1 }) := by
  simp only [envarEnvStep, envarEnvInit, envarEnvCountdown, durI32_four]
  norm_num

lemma envStep2 : envarEnvStep (envarEnvStep envarEnvInit 1 4 8 1 1).2 1 4 8 1 1 =
    (0, { current := 0, phase := .Attack, start := 0, target := 1,
          stage_total := 4, stage_remain := 3, curve := 1 }) := by
  rw [envStep1]
  simp only [envarEnvStep, envarEnvCountdown, durI32_four]
  norm_num

lemma envStep2NoRestart :
    (envarEnvCountdown (envarEnvStep envarEnvInit 1 4 8 1 1).2 8 1).2.stage_remain = 2 := by
  rw [envStep1]
  simp only [envarEnvCountdown]
  norm_num

/-- C2: two graphs produced by replaying the same sequence of add_node and
connect calls with the same generator parameters and the same explicit
seeds, processed the same number of times, hold bit for bit identical
output buffers: the embedded semantics is a pure function of the build
script, with all pseudo-randomness owned by explicitly seeded per-node
generators. -/
theorem process_deterministic_for_identical_builds
    (sr : Sample) (bs : ℕ) (cmds : List BuildCmd) (n : ℕ) (g1 g2 : GenGraph)
    (h1 : buildGraph sr bs cmds = .ok g1) (h2 : buildGraph sr bs cmds = .ok g2) :
    (processN g1 n).map outputsOf = (processN g2 n).map outputsOf := by
  have hg : g1 = g2 := by
    have h := h1.symm.trans h2
    injection h
  rw [hg]

theorem process_deterministic_witness :
    (processN wgBuilt 1).map outputsOf = (processN wgBuilt 1).map outputsOf :=
  process_deterministic_for_identical_builds 8 2 c2cmds 1 wgBuilt wgBuilt rfl rfl

/-- C3: the execution order is a function of the node and edge structure
alone.  The GenGraph state embedded from graph.rs carries no cached order
field at all (the source marks caching as a TODO), so every read recomputes
the Kahn sort from the current structure; two graphs with the same nodes
always give the same order, whatever their other fields or call history. -/
theorem execution_order_recomputed_from_structure (g1 g2 : GenGraph)
    (h : g1.nodes = g2.nodes) :
    g1.get_execution_node_ids = g2.get_execution_node_ids := by
  unfold GenGraph.get_execution_node_ids
  rw [h]

theorem execution_order_recomputed_witness :
    wgTwo.get_execution_node_ids =
      ({ wgTwo with time_sample := 99 } : GenGraph).get_execution_node_ids :=
  execution_order_recomputed_from_structure wgTwo { wgTwo with time_sample := 99 } rfl

/-- C4: connect_ids called with a destination input index that already has
an incoming edge fails with the duplicate-connection error and returns the
graph completely unchanged: the check precedes any mutation. -/
theorem connect_ids_duplicate_input_fails_unchanged
    (g : GenGraph) (src oi dst ii : ℕ) (nd : GraphNode)
    (hnd : g.nodes[dst]? = some nd)
    (hdup : ∃ e ∈ nd.inputs, e.input_index = ii) :
    g.connect_ids src oi dst ii =
      (.error "Input is already connected. Only one connection per input is allowed.", g) := by
  obtain ⟨e, he, hei⟩ := hdup
  have hany : (nd.inputs.any fun e => decide (e.input_index = ii)) = true :=
    List.any_eq_true.mpr ⟨e, he, by simp [hei]⟩
  unfold GenGraph.connect_ids
  rw [hnd]
  simp [hany]

theorem connect_duplicate_witness :
    wgChain.connect_ids 0 0 1 0 =
      (.error "Input is already connected. Only one connection per input is allowed.",
       wgChain) :=
  connect_ids_duplicate_input_fails_unchanged wgChain 0 0 1 0
    (wgChain.nodes.getD 1 default) (by decide) (by decide)

/-- C5: add_node with a name already registered fails with the naming error
and leaves the graph unchanged; with a fresh name it succeeds, returns the
NodeId equal to the storage position, and stores the new node there with
empty edges and zeroed block-sized buffers. -/
theorem add_node_duplicate_fails_fresh_succeeds
    (g : GenGraph) (name : String) (node : UG) :
    ((lookupName g.name_to_node_id name).isSome = true →
      g.add_node name node = (.error "Node name already exists.", g)) ∧
    ((lookupName g.name_to_node_id name).isSome = false →
      (g.add_node name node).1 = .ok g.nodes.length ∧
      ((g.add_node name node).2.nodes)[g.nodes.length]? =
        some { id := g.nodes.length, name := name, ug := node, inputs := [],
               outputs := List.replicate node.output_names.length
                 (List.replicate g.buffer_size 0) }) := by
  constructor
  · intro h
    unfold GenGraph.add_node
    rw [if_pos h]
  · intro h
    unfold GenGraph.add_node
    rw [if_neg (by simp [h])]
    exact ⟨rfl, List.getElem?_concat_length _ _⟩

theorem add_node_witness :
    ((lookupName wgTwo.name_to_node_id "a").isSome = true →
      wgTwo.add_node "a" (.const 3) = (.error "Node name already exists.", wgTwo)) ∧
    ((lookupName wgTwo.name_to_node_id "a").isSome = false →
      (wgTwo.add_node "a" (.const 3)).1 = .ok wgTwo.nodes.length ∧
      ((wgTwo.add_node "a" (.const 3)).2.nodes)[wgTwo.nodes.length]? =
        some { id := wgTwo.nodes.length, name := "a", ug := .const 3, inputs := [],
               outputs := List.replicate (UG.const 3).output_names.length
                 (List.replicate wgTwo.buffer_size 0) }) :=
  add_node_duplicate_fails_fresh_succeeds wgTwo "a" (.const 3)

/-- C9: the unit-rate conversion of util.rs agrees with the conversion
exactly as the spec words it in every mode, and UGAsHz::process applies it
elementwise to its input block. -/
theorem unitrate_to_hz_spec (mode : UnitRate) (sr x : ℝ) (input : List ℝ)
    (len i : ℕ) (hi : i < len) :
    unitrate_to_hz x mode sr = spec_unit_conversion mode sr x ∧
    (asHzBlock mode sr input len).getD i 0 =
      unitrate_to_hz (input.getD i 0) mode sr := by
  constructor
  · cases mode <;> simp only [unitrate_to_hz, spec_unit_conversion]
    · by_cases h : x = 0 <;> simp [h]
    · by_cases h : x = 0 <;> simp [h]
  · unfold asHzBlock
    rw [List.getD_eq_getElem?_getD, List.getElem?_map, List.getElem?_range hi]
    rfl

theorem unitrate_to_hz_witness :
    0 < 1 ∧
    (unitrate_to_hz 2 .Seconds 8 = spec_unit_conversion .Seconds 8 2 ∧
     (asHzBlock .Seconds 8 [2] 1).getD 0 0 =
       unitrate_to_hz (([2] : List ℝ).getD 0 0) .Seconds 8) :=
  ⟨by decide, unitrate_to_hz_spec .Seconds 8 2 [2] 1 0 (by decide)⟩

/-- C8 counterexample: the ugen_env.rs UGEnvAR has no edge detection.  From
the fresh state, two consecutive samples both with trigger 1 (above the 0.5
threshold) restart the Attack stage both times: the second sample does not
equal the pure countdown from the state after the first sample (the
countdown would leave stage_remain 2 and level 1/4, the actual step resets
the stage and leaves stage_remain 3 and level 0). -/
theorem envar_level_trigger_counterexample :
    (envarEnvStep envarEnvInit 1 4 8 1 1).2.stage_remain = 3 ∧
    envarEnvStep (envarEnvStep envarEnvInit 1 4 8 1 1).2 1 4 8 1 1 ≠
      envarEnvCountdown (envarEnvStep envarEnvInit 1 4 8 1 1).2 8 1 := by
  constructor
  · rw [envStep1]
  · intro h
    have h2 := congrArg (fun p => p.2.stage_remain) h
    rw [envStep2] at h2
    simp only at h2
    rw [envStep2NoRestart] at h2
    exact absurd h2 (by norm_num)

/-- C8 amended: the ugen_core.rs UGEnvAR restarts an Attack stage only on a
rising trigger edge.  With the trigger above the 0.5 threshold, if the
previous sample was also above (triggered_last true) the step is exactly the
countdown with no restart; if the previous sample was not above
(triggered_last false) the step is the countdown of the freshly restarted
Attack stage. -/
theorem envar_rising_edge_only (st : EnvARCore) (trig att rel acurve rcurve : ℝ)
    (ht : trig > 0.5) :
    (st.triggered_last = true →
      envarCoreStep st trig att rel acurve rcurve =
        envarCoreCountdown st trig rel rcurve) ∧
    (st.triggered_last = false →
      envarCoreStep st trig att rel acurve rcurve =
        envarCoreCountdown (envarCoreRestart st att acurve) trig rel rcurve) := by
  constructor
  · intro h
    simp only [envarCoreStep]
    rw [if_neg (by simp [h])]
  · intro h
    simp only [envarCoreStep]
    rw [if_pos ⟨ht, h⟩]

theorem envar_rising_edge_witness :
    ((1 : ℝ) > 0.5) ∧
    ((envarCoreInit.triggered_last = true →
       envarCoreStep envarCoreInit 1 4 8 1 1 =
         envarCoreCountdown envarCoreInit 1 8 1) ∧
     (envarCoreInit.triggered_last = false →
       envarCoreStep envarCoreInit 1 4 8 1 1 =
         envarCoreCountdown (envarCoreRestart envarCoreInit 4 1) 1 8 1)) :=
  ⟨by norm_num, envar_rising_edge_only envarCoreInit 1 4 8 1 1 (by norm_num)⟩

/-- C7 counterexample: for the empty graph (block size 1, no nodes) and
N = 5, Recorder::from_samples succeeds but get_shape returns (0, 0), not
(number of declared labels, 5): with no captured labels the length component
is unwrap_or(0), never N. -/
theorem recorder_shape_counterexample :
    (Recorder.from_samples (GenGraph.new 8 1) none 5).map Recorder.get_shape =
      .ok (0, 0) ∧
    ((0, 0) : ℕ × ℕ) ≠ (totalOutputCount (GenGraph.new 8 1), 5) := by
  constructor
  · rfl
  · decide

/-! Kahn scheduler machinery: list helpers, pending-count arithmetic, the
relaxation fold specifications, the loop invariant, and the two scheduler
claims. -/

lemma getD_set_self (l : List ℕ) (i v : ℕ) (h : i < l.length) :
    (l.set i v).getD i 0 = v := by
  rw [List.getD_eq_getElem?_getD, List.getElem?_set_self h]
  rfl

lemma getD_set_ne (l : List ℕ) (i j v : ℕ) (h : i ≠ j) :
    (l.set i v).getD j 0 = l.getD j 0 := by
  rw [List.getD_eq_getElem?_getD, List.getElem?_set_ne h, ← List.getD_eq_getElem?_getD]

lemma nodes_getD_mem (nodes : List GraphNode) (j : ℕ) (h : j < nodes.length) :
    nodes.getD j default ∈ nodes := by
  rw [List.getD_eq_getElem _ _ h]
  exact List.getElem_mem h

lemma ids_eq_range (nodes : List GraphNode)
    (hid : ∀ i < nodes.length, (nodes.getD i default).id = i) :
    nodes.map (fun t => t.id) = List.range nodes.length := by
  apply List.ext_getElem (by simp)
  intro i h1 h2
  simp only [List.getElem_map, List.getElem_range]
  have := hid i (by simpa using h1)
  rwa [List.getD_eq_getElem _ _ (by simpa using h1)] at this

lemma nodes_getD_id (nodes : List GraphNode)
    (hid : ∀ i < nodes.length, (nodes.getD i default).id = i)
    (t : GraphNode) (ht : t ∈ nodes) : nodes.getD t.id default = t := by
  obtain ⟨p, hp, hget⟩ := List.getElem_of_mem ht
  have hpid : t.id = p := by
    have := hid p hp
    rw [List.getD_eq_getElem _ _ hp, hget] at this
    exact this
  rw [hpid, List.getD_eq_getElem _ _ hp, hget]

lemma id_lt_of_mem (nodes : List GraphNode)
    (hid : ∀ i < nodes.length, (nodes.getD i default).id = i)
    (t : GraphNode) (ht : t ∈ nodes) : t.id < nodes.length := by
  have : t.id ∈ nodes.map (fun t => t.id) := List.mem_map_of_mem _ ht
  rw [ids_eq_range nodes hid] at this
  exact List.mem_range.mp this

lemma countP_snoc_pending (done : List ℕ) (nid : ℕ) (hnid : nid ∉ done) :
    ∀ l : List ℕ,
      l.countP (fun s => decide (s = nid)) ≤ l.countP (fun s => decide (s ∉ done)) ∧
      l.countP (fun s => decide (s ∉ done ++ [nid])) =
        l.countP (fun s => decide (s ∉ done)) - l.countP (fun s => decide (s = nid))
  | [] => by simp
  | x :: l => by
    obtain ⟨ih1, ih2⟩ := countP_snoc_pending done nid hnid l
    simp only [List.countP_cons, decide_eq_true_eq]
    by_cases hx : x = nid
    · rw [if_pos hx, if_pos (by rw [hx]; exact hnid),
        if_neg (fun hcon => hcon (List.mem_append.mpr (Or.inr (by simp [hx]))))]
      omega
    · by_cases hd : x ∈ done
      · rw [if_neg hx, if_neg (by simp [hd]),
          if_neg (fun hcon => hcon (List.mem_append.mpr (Or.inl hd)))]
        omega
      · rw [if_neg hx, if_pos hd, if_pos (by
          intro hcon
          rcases List.mem_append.mp hcon with h | h
          · exact hd h
          · exact hx (by simpa using h))]
        omega

lemma matchCnt_eq_countP_srcs (nodes : List GraphNode)
    (hid : ∀ i < nodes.length, (nodes.getD i default).id = i)
    (t : GraphNode) (ht : t ∈ nodes) (nid : ℕ) :
    matchCnt t.inputs nid = (srcsAt nodes t.id).countP (fun s => decide (s = nid)) := by
  unfold matchCnt srcsAt
  rw [nodes_getD_id nodes hid t ht, List.countP_map]
  rfl

lemma pending_snoc (nodes : List GraphNode)
    (hid : ∀ i < nodes.length, (nodes.getD i default).id = i)
    (done : List ℕ) (nid : ℕ) (hnid : nid ∉ done)
    (t : GraphNode) (ht : t ∈ nodes) :
    matchCnt t.inputs nid ≤ pending nodes done t.id ∧
    pending nodes (done ++ [nid]) t.id =
      pending nodes done t.id - matchCnt t.inputs nid := by
  obtain ⟨h1, h2⟩ := countP_snoc_pending done nid hnid (srcsAt nodes t.id)
  rw [matchCnt_eq_countP_srcs nodes hid t ht nid]
  exact ⟨h1, h2⟩

lemma pending_mono_snoc (nodes : List GraphNode) (done : List ℕ) (x j : ℕ) :
    pending nodes (done ++ [x]) j ≤ pending nodes done j := by
  apply List.countP_mono_left
  intro s _ hs
  simp only [decide_eq_true_eq, List.mem_append] at hs ⊢
  exact fun h => hs (Or.inl h)

lemma pending_zero_iff (nodes : List GraphNode) (done : List ℕ) (j : ℕ) :
    pending nodes done j = 0 ↔ ∀ s ∈ srcsAt nodes j, s ∈ done := by
  unfold pending
  rw [List.countP_eq_zero]
  constructor
  · intro h s hs
    have := h s hs
    simpa using this
  · intro h s hs
    simpa using h s hs

lemma foldl_set_length (ns : List GraphNode) :
    ∀ acc : List ℕ,
      (ns.foldl (fun a nd => a.set nd.id nd.inputs.length) acc).length = acc.length := by
  induction ns with
  | nil => intro acc; rfl
  | cons t ns ih =>
    intro acc
    rw [List.foldl_cons, ih]
    exact List.length_set acc t.id t.inputs.length

lemma foldl_set_untouched (ns : List GraphNode) :
    ∀ (acc : List ℕ) (j : ℕ), j ∉ ns.map (fun t => t.id) →
      (ns.foldl (fun a nd => a.set nd.id nd.inputs.length) acc).getD j 0 =
        acc.getD j 0 := by
  induction ns with
  | nil => intro acc j _; rfl
  | cons t ns ih =>
    intro acc j hj
    simp only [List.map_cons, List.mem_cons] at hj
    push_neg at hj
    rw [List.foldl_cons, ih _ _ hj.2, getD_set_ne _ _ _ _ (fun h => hj.1 h.symm)]

lemma foldl_set_value (ns : List GraphNode) :
    ∀ acc : List ℕ, (ns.map (fun t => t.id)).Nodup →
      (∀ t ∈ ns, t.id < acc.length) →
      ∀ t ∈ ns, (ns.foldl (fun a nd => a.set nd.id nd.inputs.length) acc).getD t.id 0 =
        t.inputs.length := by
  induction ns with
  | nil => intro acc _ _ t ht; cases ht
  | cons u ns ih =>
    intro acc hnd hlt t ht
    simp only [List.map_cons, List.nodup_cons] at hnd
    rw [List.foldl_cons]
    rcases List.mem_cons.mp ht with h | h
    · subst h
      rw [foldl_set_untouched ns _ _ hnd.1]
      exact getD_set_self acc _ _ (hlt t (List.mem_cons_self _ _))
    · exact ih _ hnd.2
        (fun t' ht' => by rw [List.length_set]; exact hlt t' (List.mem_cons_of_mem _ ht'))
        t h

lemma initIndegree_length (nodes : List GraphNode) :
    (initIndegree nodes).length = nodes.length := by
  unfold initIndegree
  rw [foldl_set_length]
  exact List.length_replicate _ _

lemma initIndegree_value (nodes : List GraphNode)
    (hid : ∀ i < nodes.length, (nodes.getD i default).id = i)
    (j : ℕ) (hj : j < nodes.length) :
    (initIndegree nodes).getD j 0 = (nodes.getD j default).inputs.length := by
  unfold initIndegree
  have hnd : (nodes.map (fun t => t.id)).Nodup := by
    rw [ids_eq_range nodes hid]; exact List.nodup_range _
  have hlt : ∀ t ∈ nodes, t.id < (List.replicate nodes.length (0 : ℕ)).length := by
    intro t ht
    rw [List.length_replicate]
    exact id_lt_of_mem nodes hid t ht
  have := foldl_set_value nodes _ hnd hlt _ (nodes_getD_mem nodes j hj)
  rwa [hid j hj] at this

lemma pending_nil (nodes : List GraphNode) (j : ℕ) :
    pending nodes [] j = (nodes.getD j default).inputs.length := by
  unfold pending srcsAt
  rw [← List.length_map (nodes.getD j default).inputs (fun e => e.src)]
  rw [List.countP_eq_length.mpr]
  intro a _
  simp

lemma relaxFold_spec (nid tid : ℕ) :
    ∀ (l : List NodeEdge) (D Q : List ℕ), tid < D.length →
      matchCnt l nid ≤ D.getD tid 0 →
      ((l.foldl (fun st e =>
          if e.src = nid then
            let indeg := st.1.set tid (st.1.getD tid 0 - 1)
            if indeg.getD tid 0 = 0 then (indeg, st.2 ++ [tid]) else (indeg, st.2)
          else st) (D, Q)).1.length = D.length ∧
       (∀ j, j ≠ tid →
         (l.foldl (fun st e =>
            if e.src = nid then
              let indeg := st.1.set tid (st.1.getD tid 0 - 1)
              if indeg.getD tid 0 = 0 then (indeg, st.2 ++ [tid]) else (indeg, st.2)
            else st) (D, Q)).1.getD j 0 = D.getD j 0) ∧
       (l.foldl (fun st e =>
          if e.src = nid then
            let indeg := st.1.set tid (st.1.getD tid 0 - 1)
            if indeg.getD tid 0 = 0 then (indeg, st.2 ++ [tid]) else (indeg, st.2)
          else st) (D, Q)).1.getD tid 0 = D.getD tid 0 - matchCnt l nid ∧
       (l.foldl (fun st e =>
          if e.src = nid then
            let indeg := st.1.set tid (st.1.getD tid 0 - 1)
            if indeg.getD tid 0 = 0 then (indeg, st.2 ++ [tid]) else (indeg, st.2)
          else st) (D, Q)).2 =
         Q ++ (if D.getD tid 0 ≠ 0 ∧ matchCnt l nid = D.getD tid 0 then [tid] else [])) := by
  intro l
  induction l with
  | nil =>
    intro D Q hlt hcnt
    refine ⟨rfl, fun j _ => rfl, by simp [matchCnt], ?_⟩
    rw [if_neg (fun hcon => hcon.1 (by simpa [matchCnt] using hcon.2.symm)),
      List.append_nil]
    rfl
  | cons e l ih =>
    intro D Q hlt hcnt
    rw [List.foldl_cons]
    by_cases hs : e.src = nid
    · have hm : matchCnt (e :: l) nid = matchCnt l nid + 1 := by
        simp [matchCnt, List.countP_cons, hs]
      rw [hm] at hcnt
      have hd : 1 ≤ D.getD tid 0 := le_trans (by omega) hcnt
      have hindeg : (D.set tid (D.getD tid 0 - 1)).getD tid 0 = D.getD tid 0 - 1 :=
        getD_set_self _ _ _ hlt
      simp only [if_pos hs]
      by_cases hd1 : (D.set tid (D.getD tid 0 - 1)).getD tid 0 = 0
      · rw [if_pos hd1]
        have hz : D.getD tid 0 - 1 = 0 := by rwa [hindeg] at hd1
        have hcnt' : matchCnt l nid ≤ (D.set tid (D.getD tid 0 - 1)).getD tid 0 := by
          rw [hindeg]; omega
        obtain ⟨A, B, C, E⟩ := ih (D.set tid (D.getD tid 0 - 1)) (Q ++ [tid])
          (by rwa [List.length_set]) hcnt'
        refine ⟨by rwa [List.length_set] at A, ?_, ?_, ?_⟩
        · intro j hj
          rw [B j hj, getD_set_ne _ _ _ _ (fun h => hj h.symm)]
        · rw [C, hindeg, hm]; omega
        · rw [E, if_neg (fun hcon => hcon.1 hd1), List.append_nil,
            if_pos ⟨by omega, by omega⟩]
      · rw [if_neg hd1]
        have hz : D.getD tid 0 - 1 ≠ 0 := by rwa [hindeg] at hd1
        have hcnt' : matchCnt l nid ≤ (D.set tid (D.getD tid 0 - 1)).getD tid 0 := by
          rw [hindeg]; omega
        obtain ⟨A, B, C, E⟩ := ih (D.set tid (D.getD tid 0 - 1)) Q
          (by rwa [List.length_set]) hcnt'
        refine ⟨by rwa [List.length_set] at A, ?_, ?_, ?_⟩
        · intro j hj
          rw [B j hj, getD_set_ne _ _ _ _ (fun h => hj h.symm)]
        · rw [C, hindeg, hm]; omega
        · rw [E, hindeg, hm]
          by_cases hc : matchCnt l nid = D.getD tid 0 - 1
          · rw [if_pos ⟨hz, hc⟩, if_pos ⟨by omega, by omega⟩]
          · rw [if_neg (fun hcon => hc hcon.2), if_neg (fun hcon => hc (by omega))]
    · have hm : matchCnt (e :: l) nid = matchCnt l nid := by
        simp [matchCnt, List.countP_cons, hs]
      rw [hm] at hcnt
      simp only [if_neg hs]
      obtain ⟨A, B, C, E⟩ := ih D Q hlt hcnt
      exact ⟨A, B, by rw [C, hm], by rw [E, hm]⟩

lemma relaxTarget_spec (nid : ℕ) (t : GraphNode) (D Q : List ℕ)
    (hlt : t.id < D.length) (hcnt : matchCnt t.inputs nid ≤ D.getD t.id 0) :
    (relaxTarget nid t (D, Q)).1.length = D.length ∧
    (∀ j, j ≠ t.id → (relaxTarget nid t (D, Q)).1.getD j 0 = D.getD j 0) ∧
    (relaxTarget nid t (D, Q)).1.getD t.id 0 = D.getD t.id 0 - matchCnt t.inputs nid ∧
    (relaxTarget nid t (D, Q)).2 =
      Q ++ (if D.getD t.id 0 ≠ 0 ∧ matchCnt t.inputs nid = D.getD t.id 0
            then [t.id] else []) :=
  relaxFold_spec nid t.id t.inputs D Q hlt hcnt

lemma relaxList_spec (nid : ℕ) :
    ∀ (ns : List GraphNode) (D Q : List ℕ),
      (ns.map (fun t => t.id)).Nodup →
      (∀ t ∈ ns, t.id < D.length) →
      (∀ t ∈ ns, matchCnt t.inputs nid ≤ D.getD t.id 0) →
      ((ns.foldl (fun st target => relaxTarget nid target st) (D, Q)).1.length =
        D.length ∧
       (∀ j, j ∉ ns.map (fun t => t.id) →
         (ns.foldl (fun st target => relaxTarget nid target st) (D, Q)).1.getD j 0 =
           D.getD j 0) ∧
       (∀ t ∈ ns,
         (ns.foldl (fun st target => relaxTarget nid target st) (D, Q)).1.getD t.id 0 =
           D.getD t.id 0 - matchCnt t.inputs nid) ∧
       (ns.foldl (fun st target => relaxTarget nid target st) (D, Q)).2 =
         Q ++ (ns.filter (fun t =>
            decide (D.getD t.id 0 ≠ 0 ∧ matchCnt t.inputs nid = D.getD t.id 0))).map
            (fun t => t.id)) := by
  intro ns
  induction ns with
  | nil =>
    intro D Q _ _ _
    exact ⟨rfl, fun j _ => rfl, fun t ht => absurd ht (List.not_mem_nil t), by simp⟩
  | cons u ns ih =>
    intro D Q hnd hlt hcnt
    simp only [List.map_cons, List.nodup_cons] at hnd
    obtain ⟨A0, B0, C0, E0⟩ := relaxTarget_spec nid u D Q
      (hlt u (List.mem_cons_self _ _)) (hcnt u (List.mem_cons_self _ _))
    have hne : ∀ t ∈ ns, t.id ≠ u.id := by
      intro t ht h
      exact hnd.1 (h ▸ List.mem_map_of_mem (fun t => t.id) ht)
    obtain ⟨A, B, C, E⟩ := ih (relaxTarget nid u (D, Q)).1 (relaxTarget nid u (D, Q)).2
      hnd.2
      (fun t ht => by rw [A0]; exact hlt t (List.mem_cons_of_mem _ ht))
      (fun t ht => by rw [B0 t.id (hne t ht)]; exact hcnt t (List.mem_cons_of_mem _ ht))
    rw [List.foldl_cons]
    refine ⟨by rw [A, A0], ?_, ?_, ?_⟩
    · intro j hj
      simp only [List.map_cons, List.mem_cons] at hj
      push_neg at hj
      rw [B j hj.2, B0 j hj.1]
    · intro t ht
      rcases List.mem_cons.mp ht with h | h
      · subst h
        rw [B t.id hnd.1, C0]
      · rw [C t h, B0 t.id (hne t h)]
    · rw [E, E0, List.append_assoc]
      congr 1
      have hcong : (ns.filter (fun t =>
          decide ((relaxTarget nid u (D, Q)).1.getD t.id 0 ≠ 0 ∧
            matchCnt t.inputs nid = (relaxTarget nid u (D, Q)).1.getD t.id 0))) =
          (ns.filter (fun t =>
          decide (D.getD t.id 0 ≠ 0 ∧ matchCnt t.inputs nid = D.getD t.id 0))) := by
        apply List.filter_congr
        intro t ht
        rw [B0 t.id (hne t ht)]
      rw [hcong]
      by_cases hc : D.getD u.id 0 ≠ 0 ∧ matchCnt u.inputs nid = D.getD u.id 0
      · rw [if_pos hc, List.filter_cons_of_pos (by simpa using hc), List.map_cons]
        rfl
      · rw [if_neg hc, List.filter_cons_of_neg (by simpa using hc), List.nil_append]

lemma kahn_step (nodes : List GraphNode)
    (hid : ∀ i < nodes.length, (nodes.getD i default).id = i)
    (D rest order : List ℕ) (nid : ℕ)
    (inv : KahnInv nodes D (nid :: rest) order) :
    KahnInv nodes (relaxAll nodes nid (D, rest)).1 (relaxAll nodes nid (D, rest)).2
      (order ++ [nid]) := by
  have hnid_lt : nid < nodes.length :=
    inv.mem_lt nid (List.mem_append.mpr (Or.inr (List.mem_cons_self _ _)))
  have hN : ((order ++ [nid]) ++ rest).Nodup := by
    have := inv.nodup
    rwa [List.append_cons] at this
  have hA : (order ++ [nid]).Nodup := (List.nodup_append.mp hN).1
  have hRest : rest.Nodup := (List.nodup_append.mp hN).2.1
  have hDisAR : (order ++ [nid]).Disjoint rest := (List.nodup_append.mp hN).2.2
  have hnid_not_order : nid ∉ order := by
    have := (List.nodup_append.mp hA).2.2
    intro h
    exact this h (List.mem_singleton.mpr rfl)
  have hq0_nid : pending nodes order nid = 0 :=
    inv.q_zero nid (List.mem_cons_self _ _)
  obtain ⟨A, B, C, E⟩ := relaxList_spec nid nodes D rest
    (by rw [ids_eq_range nodes hid]; exact List.nodup_range _)
    (fun t ht => by rw [inv.dlen]; exact id_lt_of_mem nodes hid t ht)
    (fun t ht => by
      rw [inv.dval t.id (id_lt_of_mem nodes hid t ht)]
      exact (pending_snoc nodes hid order nid hnid_not_order t ht).1)
  have hval : ∀ j < nodes.length,
      (relaxAll nodes nid (D, rest)).1.getD j 0 = pending nodes (order ++ [nid]) j := by
    intro j hj
    have ht : nodes.getD j default ∈ nodes := nodes_getD_mem nodes j hj
    have hC := C (nodes.getD j default) ht
    rw [hid j hj] at hC
    have heq := (pending_snoc nodes hid order nid hnid_not_order _ ht).2
    simp only [hid j hj] at heq
    unfold relaxAll
    rw [hC, inv.dval j hj, heq]
  have hPmem : ∀ j, j ∈ ((nodes.filter (fun t =>
        decide (D.getD t.id 0 ≠ 0 ∧ matchCnt t.inputs nid = D.getD t.id 0))).map
        (fun t => t.id)) ↔
      j < nodes.length ∧ pending nodes order j ≠ 0 ∧
        pending nodes (order ++ [nid]) j = 0 := by
    intro j
    constructor
    · intro hj
      obtain ⟨t, htf, hij⟩ := List.mem_map.mp hj
      obtain ⟨htn, hcond⟩ := List.mem_filter.mp htf
      have hcond2 := of_decide_eq_true hcond
      have hjlt : j < nodes.length := hij ▸ id_lt_of_mem nodes hid t htn
      obtain ⟨hle, heq⟩ := pending_snoc nodes hid order nid hnid_not_order t htn
      refine ⟨hjlt, ?_, ?_⟩
      · rw [← hij, ← inv.dval t.id (id_lt_of_mem nodes hid t htn)]
        exact hcond2.1
      · rw [← hij, heq, ← inv.dval t.id (id_lt_of_mem nodes hid t htn), hcond2.2]
        omega
    · rintro ⟨hjlt, hp1, hp2⟩
      have ht : nodes.getD j default ∈ nodes := nodes_getD_mem nodes j hjlt
      obtain ⟨hle, heq⟩ := pending_snoc nodes hid order nid hnid_not_order _ ht
      simp only [hid j hjlt] at hle heq
      have hcond : D.getD j 0 ≠ 0 ∧
          matchCnt (nodes.getD j default).inputs nid = D.getD j 0 := by
        rw [inv.dval j hjlt]
        exact ⟨hp1, by omega⟩
      have : nodes.getD j default ∈ nodes.filter (fun t =>
          decide (D.getD t.id 0 ≠ 0 ∧ matchCnt t.inputs nid = D.getD t.id 0)) := by
        rw [List.mem_filter]
        refine ⟨ht, ?_⟩
        rw [hid j hjlt]
        exact decide_eq_true hcond
      have hb := List.mem_map_of_mem (fun t => t.id) this
      beta_reduce at hb
      rwa [hid j hjlt] at hb
  have hPnodup : ((nodes.filter (fun t =>
      decide (D.getD t.id 0 ≠ 0 ∧ matchCnt t.inputs nid = D.getD t.id 0))).map
      (fun t => t.id)).Nodup := by
    apply List.Nodup.sublist (List.Sublist.map _ (List.filter_sublist nodes))
    rw [ids_eq_range nodes hid]
    exact List.nodup_range _
  have hPfresh : ∀ j, j ∈ ((nodes.filter (fun t =>
      decide (D.getD t.id 0 ≠ 0 ∧ matchCnt t.inputs nid = D.getD t.id 0))).map
      (fun t => t.id)) → j ∉ order ∧ j ≠ nid ∧ j ∉ rest := by
    intro j hj
    obtain ⟨-, hp1, -⟩ := (hPmem j).mp hj
    refine ⟨fun h => hp1 (inv.pop_zero j h), fun h => hp1 (h ▸ hq0_nid),
      fun h => hp1 (inv.q_zero j (List.mem_cons_of_mem _ h))⟩
  have hq2 : (relaxAll nodes nid (D, rest)).2 = rest ++ ((nodes.filter (fun t =>
      decide (D.getD t.id 0 ≠ 0 ∧ matchCnt t.inputs nid = D.getD t.id 0))).map
      (fun t => t.id)) := E
  have hlen2 : (relaxAll nodes nid (D, rest)).1.length = D.length := A
  refine ⟨?_, ?_, ?_, hval, ?_, ?_, ?_, ?_⟩
  · rw [hlen2]; exact inv.dlen
  · rw [hq2, ← List.append_assoc]
    rw [List.nodup_append]
    refine ⟨hN, hPnodup, ?_⟩
    intro a ha hp
    obtain ⟨h1, h2, h3⟩ := hPfresh a hp
    rcases List.mem_append.mp ha with h | h
    · rcases List.mem_append.mp h with h | h
      · exact h1 h
      · exact h2 (List.mem_singleton.mp h)
    · exact h3 h
  · intro x hx
    rw [hq2] at hx
    rcases List.mem_append.mp hx with h | h
    · rcases List.mem_append.mp h with h | h
      · exact inv.mem_lt x (List.mem_append.mpr (Or.inl h))
      · rw [List.mem_singleton.mp h]; exact hnid_lt
    · rcases List.mem_append.mp h with h | h
      · exact inv.mem_lt x (List.mem_append.mpr (Or.inr (List.mem_cons_of_mem _ h)))
      · exact ((hPmem x).mp h).1
  · intro j hj
    rw [hq2] at hj
    rcases List.mem_append.mp hj with h | h
    · have hm := pending_mono_snoc nodes order nid j
      have h0 := inv.q_zero j (List.mem_cons_of_mem _ h)
      omega
    · exact ((hPmem j).mp h).2.2
  · intro j hj
    rcases List.mem_append.mp hj with h | h
    · have hm := pending_mono_snoc nodes order nid j
      have h0 := inv.pop_zero j h
      omega
    · rw [List.mem_singleton.mp h]
      have hm := pending_mono_snoc nodes order nid nid
      omega
  · intro j hjlt hjo hjq
    rw [hq2] at hjq
    have hjrest : j ∉ rest := fun h => hjq (List.mem_append.mpr (Or.inl h))
    have hjP : j ∉ ((nodes.filter (fun t =>
        decide (D.getD t.id 0 ≠ 0 ∧ matchCnt t.inputs nid = D.getD t.id 0))).map
        (fun t => t.id)) := fun h => hjq (List.mem_append.mpr (Or.inr h))
    have hjorder : j ∉ order := fun h => hjo (List.mem_append.mpr (Or.inl h))
    have hjnid : j ≠ nid := fun h => hjo (List.mem_append.mpr (Or.inr (by simp [h])))
    have hold : pending nodes order j ≠ 0 :=
      inv.complete j hjlt hjorder (by
        intro h
        rcases List.mem_cons.mp h with h | h
        · exact hjnid h
        · exact hjrest h)
    intro hnew
    exact hjP ((hPmem j).mpr ⟨hjlt, hold, hnew⟩)
  · intro d hd s hs
    rcases List.mem_append.mp hd with h | h
    · obtain ⟨hso, hidx⟩ := inv.edges_before d h s hs
      refine ⟨List.mem_append.mpr (Or.inl hso), ?_⟩
      rw [List.indexOf_append_of_mem hso, List.indexOf_append_of_mem h]
      exact hidx
    · rw [List.mem_singleton.mp h] at hs ⊢
      have hso : s ∈ order := (pending_zero_iff nodes order nid).mp hq0_nid s hs
      refine ⟨List.mem_append.mpr (Or.inl hso), ?_⟩
      rw [List.indexOf_append_of_mem hso,
        List.indexOf_append_of_not_mem hnid_not_order, List.indexOf_cons_self]
      have := List.indexOf_lt_length.mpr hso
      omega

lemma nodup_lt_length_le (l : List ℕ) (n : ℕ) (hnd : l.Nodup)
    (hlt : ∀ x ∈ l, x < n) : l.length ≤ n := by
  have h1 : l.toFinset.card = l.length := List.toFinset_card_of_nodup hnd
  have h2 : l.toFinset ⊆ Finset.range n := by
    intro x hx
    rw [Finset.mem_range]
    exact hlt x (List.mem_toFinset.mp hx)
  have := Finset.card_le_card h2
  rw [h1, Finset.card_range] at this
  exact this

lemma kahn_terminal (nodes : List GraphNode) (D order : List ℕ)
    (inv : KahnInv nodes D [] order) :
    order.Nodup ∧ (∀ x ∈ order, x < nodes.length) ∧
    (∀ j < nodes.length, j ∉ order → pending nodes order j ≠ 0) ∧
    (∀ d ∈ order, ∀ s ∈ srcsAt nodes d,
      s ∈ order ∧ order.indexOf s < order.indexOf d) := by
  have hnd := inv.nodup
  rw [List.append_nil] at hnd
  refine ⟨hnd, ?_, ?_, inv.edges_before⟩
  · intro x hx
    exact inv.mem_lt x (List.mem_append.mpr (Or.inl hx))
  · intro j hj hjo
    exact inv.complete j hj hjo (List.not_mem_nil j)

lemma kahnRun_spec (nodes : List GraphNode)
    (hid : ∀ i < nodes.length, (nodes.getD i default).id = i) :
    ∀ (fuel : ℕ) (D Q order : List ℕ), KahnInv nodes D Q order →
      nodes.length ≤ fuel + order.length →
      ((kahnRun nodes fuel D Q order).Nodup ∧
       (∀ x ∈ kahnRun nodes fuel D Q order, x < nodes.length) ∧
       (∀ j < nodes.length, j ∉ kahnRun nodes fuel D Q order →
         pending nodes (kahnRun nodes fuel D Q order) j ≠ 0) ∧
       (∀ d ∈ kahnRun nodes fuel D Q order, ∀ s ∈ srcsAt nodes d,
         s ∈ kahnRun nodes fuel D Q order ∧
         (kahnRun nodes fuel D Q order).indexOf s <
           (kahnRun nodes fuel D Q order).indexOf d)) := by
  intro fuel
  induction fuel with
  | zero =>
    intro D Q order inv hfuel
    have hQnil : Q = [] := by
      have hlen := nodup_lt_length_le (order ++ Q) nodes.length inv.nodup inv.mem_lt
      rw [List.length_append] at hlen
      have : Q.length = 0 := by omega
      exact List.eq_nil_of_length_eq_zero this
    subst hQnil
    exact kahn_terminal nodes D order inv
  | succ f ih =>
    intro D Q order inv hfuel
    match Q with
    | [] => exact kahn_terminal nodes D order inv
    | nid :: rest =>
      have hstep := kahn_step nodes hid D rest order nid inv
      have heq : kahnRun nodes (f + 1) D (nid :: rest) order =
          kahnRun nodes f (relaxAll nodes nid (D, rest)).1
            (relaxAll nodes nid (D, rest)).2 (order ++ [nid]) := rfl
      rw [heq]
      exact ih (relaxAll nodes nid (D, rest)).1 (relaxAll nodes nid (D, rest)).2
        (order ++ [nid]) hstep
        (by rw [List.length_append, List.length_singleton]; omega)

lemma EdgeRel_iff_srcs (g : GenGraph) (s d : ℕ) :
    EdgeRel g s d ↔ d < g.nodes.length ∧ s ∈ srcsAt g.nodes d := by
  constructor
  · rintro ⟨nd, hnd, e, he, hsrc⟩
    obtain ⟨hlt, hget⟩ := List.getElem?_eq_some.mp hnd
    refine ⟨hlt, ?_⟩
    unfold srcsAt
    rw [List.getD_eq_getElem _ _ hlt, hget]
    exact List.mem_map.mpr ⟨e, he, hsrc⟩
  · rintro ⟨hlt, hs⟩
    obtain ⟨e, he, hesrc⟩ := List.mem_map.mp hs
    refine ⟨g.nodes.getD d default, ?_, e, he, hesrc⟩
    rw [List.getD_eq_getElem _ _ hlt]
    exact List.getElem?_eq_getElem hlt

lemma srcsAt_lt (g : GenGraph)
    (hsrc : ∀ nd ∈ g.nodes, ∀ e ∈ nd.inputs, e.src < g.nodes.length)
    (j : ℕ) (hj : j < g.nodes.length) :
    ∀ s ∈ srcsAt g.nodes j, s < g.nodes.length := by
  intro s hs
  obtain ⟨e, he, hesrc⟩ := List.mem_map.mp hs
  exact hesrc ▸ hsrc _ (nodes_getD_mem g.nodes j hj) e he

lemma exec_order_spec (g : GenGraph)
    (hid : ∀ i < g.nodes.length, (g.nodes.getD i default).id = i) :
    (g.get_execution_node_ids).Nodup ∧
    (∀ x ∈ g.get_execution_node_ids, x < g.nodes.length) ∧
    (∀ j < g.nodes.length, j ∉ g.get_execution_node_ids →
      pending g.nodes g.get_execution_node_ids j ≠ 0) ∧
    (∀ d ∈ g.get_execution_node_ids, ∀ s ∈ srcsAt g.nodes d,
      s ∈ g.get_execution_node_ids ∧
      (g.get_execution_node_ids).indexOf s <
        (g.get_execution_node_ids).indexOf d) := by
  have hinv : KahnInv g.nodes (initIndegree g.nodes)
      ((List.range g.nodes.length).filter
        (fun i => (initIndegree g.nodes).getD i 0 = 0)) [] := by
    refine ⟨initIndegree_length g.nodes, ?_, ?_, ?_, ?_, ?_, ?_, ?_⟩
    · rw [List.nil_append]
      exact (List.nodup_range _).filter _
    · intro x hx
      rw [List.nil_append] at hx
      exact List.mem_range.mp (List.mem_filter.mp hx).1
    · intro j hj
      rw [initIndegree_value g.nodes hid j hj, pending_nil]
    · intro j hj
      obtain ⟨hjr, hjc⟩ := List.mem_filter.mp hj
      have hjz := of_decide_eq_true hjc
      have hjlt := List.mem_range.mp hjr
      rw [initIndegree_value g.nodes hid j hjlt] at hjz
      rw [pending_nil]
      exact hjz
    · intro j hj
      cases hj
    · intro j hjlt _ hjq
      rw [pending_nil, ← initIndegree_value g.nodes hid j hjlt]
      intro hz
      exact hjq (List.mem_filter.mpr ⟨List.mem_range.mpr hjlt, decide_eq_true hz⟩)
    · intro d hd
      cases hd
  have hrun := kahnRun_spec g.nodes hid g.nodes.length (initIndegree g.nodes)
    ((List.range g.nodes.length).filter
      (fun i => (initIndegree g.nodes).getD i 0 = 0)) [] hinv (by simp)
  exact hrun

lemma acyclic_of_lt (g : GenGraph) (h : ∀ s d, EdgeRel g s d → s < d) :
    Acyclic g := by
  have mono : ∀ a b, Relation.TransGen (EdgeRel g) a b → a < b := by
    intro a b hab
    induction hab with
    | single h1 => exact h _ _ h1
    | tail _ h2 ih => exact lt_trans ih (h _ _ h2)
  intro i hi
  exact lt_irrefl i (mono i i hi)

lemma exec_order_complete (g : GenGraph) (hwf : WF g) (hacyc : Acyclic g) :
    ∀ j < g.nodes.length, j ∈ g.get_execution_node_ids := by
  classical
  have hid := hwf.1
  have hsrc := hwf.2.1
  obtain ⟨hnd, hmem, hcomp, hedges⟩ := exec_order_spec g hid
  by_contra hcon
  push_neg at hcon
  obtain ⟨j0, hj0lt, hj0⟩ := hcon
  have hstep : ∀ j, j < g.nodes.length ∧ j ∉ g.get_execution_node_ids →
      ∃ s, (s < g.nodes.length ∧ s ∉ g.get_execution_node_ids) ∧ EdgeRel g s j := by
    rintro j ⟨hjlt, hjres⟩
    have hp := hcomp j hjlt hjres
    have hpos : 0 < (srcsAt g.nodes j).countP
        (fun s => decide (s ∉ g.get_execution_node_ids)) :=
      Nat.pos_of_ne_zero hp
    obtain ⟨s, hs, hdec⟩ := List.countP_pos_iff.mp hpos
    exact ⟨s, ⟨srcsAt_lt g hsrc j hjlt s hs, of_decide_eq_true hdec⟩,
      (EdgeRel_iff_srcs g s j).mpr ⟨hjlt, hs⟩⟩
  choose f hf using hstep
  let seq : ℕ → {x : ℕ // x < g.nodes.length ∧ x ∉ g.get_execution_node_ids} :=
    fun k => Nat.rec ⟨j0, hj0lt, hj0⟩ (fun _ p => ⟨f p.1 p.2, (hf p.1 p.2).1⟩) k
  have hedge : ∀ k, EdgeRel g (seq (k + 1)).1 (seq k).1 :=
    fun k => (hf (seq k).1 (seq k).2).2
  have hchain : ∀ m k, Relation.TransGen (EdgeRel g) (seq (k + m + 1)).1 (seq k).1 := by
    intro m
    induction m with
    | zero => intro k; exact Relation.TransGen.single (hedge k)
    | succ m ihm =>
      intro k
      exact Relation.TransGen.head (hedge (k + m + 1)) (ihm k)
  have hmaps : ∀ k ∈ Finset.range (g.nodes.length + 1),
      (seq k).1 ∈ Finset.range g.nodes.length :=
    fun k _ => Finset.mem_range.mpr (seq k).2.1
  have hcard : (Finset.range g.nodes.length).card <
      (Finset.range (g.nodes.length + 1)).card := by
    simp [Finset.card_range]
  obtain ⟨a, _, b, _, hab, heqab⟩ :=
    Finset.exists_ne_map_eq_of_card_lt_of_maps_to hcard hmaps
  have key : ∀ u v : ℕ, u < v → (seq u).1 = (seq v).1 → False := by
    intro u v huv hequv
    have ht : Relation.TransGen (EdgeRel g) (seq v).1 (seq u).1 := by
      have h := hchain (v - u - 1) u
      have harith : u + (v - u - 1) + 1 = v := by omega
      rwa [harith] at h
    rw [hequv] at ht
    exact hacyc (seq v).1 ht
  rcases lt_or_gt_of_ne hab with h | h
  · exact key a b h heqab
  · exact key b a h heqab.symm

/-- C1: for every wellformed graph whose edge set is acyclic, the execution
order of get_execution_node_ids contains every registered node exactly once
and, for every edge src to dst, places src strictly before dst. -/
theorem kahn_order_topological (g : GenGraph) (hwf : WF g) (hacyc : Acyclic g) :
    (∀ i < g.nodes.length, (g.get_execution_node_ids).count i = 1) ∧
    (∀ s d, EdgeRel g s d →
      s ∈ g.get_execution_node_ids ∧ d ∈ g.get_execution_node_ids ∧
      (g.get_execution_node_ids).indexOf s <
        (g.get_execution_node_ids).indexOf d) := by
  have hid := hwf.1
  obtain ⟨hnd, hmem, hcomp, hedges⟩ := exec_order_spec g hid
  have hcomplete := exec_order_complete g hwf hacyc
  constructor
  · intro i hi
    exact List.count_eq_one_of_mem hnd (hcomplete i hi)
  · intro s d he
    obtain ⟨hdlt, hs⟩ := (EdgeRel_iff_srcs g s d).mp he
    have hdmem := hcomplete d hdlt
    obtain ⟨hsmem, hidx⟩ := hedges d hdmem s hs
    exact ⟨hsmem, hdmem, hidx⟩

theorem kahn_order_topological_witness :
    (∀ i < wgChain.nodes.length, (wgChain.get_execution_node_ids).count i = 1) ∧
    (∀ s d, EdgeRel wgChain s d →
      s ∈ wgChain.get_execution_node_ids ∧ d ∈ wgChain.get_execution_node_ids ∧
      (wgChain.get_execution_node_ids).indexOf s <
        (wgChain.get_execution_node_ids).indexOf d) :=
  kahn_order_topological wgChain (by decide)
    (acyclic_of_lt wgChain (by
      intro s d h
      rw [EdgeRel_iff_srcs] at h
      obtain ⟨hd, hs⟩ := h
      rw [(by decide : wgChain.nodes.length = 2)] at hd
      interval_cases d
      · rw [(by decide : srcsAt wgChain.nodes 0 = [])] at hs
        cases hs
      · rw [(by decide : srcsAt wgChain.nodes 1 = [0])] at hs
        have := List.mem_singleton.mp hs
        omega))

lemma processNode_ok_shape (ns : List GraphNode) (sr : Sample) (ts o : ℕ)
    (m : List GraphNode) (h : processNode ns sr ts o = .ok m) :
    ∃ nd x, ns[o]? = some nd ∧ m = ns.set o x := by
  unfold processNode at h
  split at h
  · exact absurd h (by simp)
  · rename_i nd hnode
    cases hins : gatherInputs ns o nd with
    | error e =>
      rw [hins] at h
      simp only [Bind.bind, Except.bind] at h
      simp at h
    | ok ins =>
      rw [hins] at h
      simp only [Bind.bind, Except.bind] at h
      cases hr : nd.ug.process ins nd.outputs sr ts with
      | error e =>
        rw [hr] at h
        simp at h
      | ok r =>
        rw [hr] at h
        simp only [Pure.pure, Except.pure, Except.ok.injEq] at h
        exact ⟨nd, _, hnode, h.symm⟩

lemma foldlM_processNode_untouched (sr : Sample) (ts : ℕ) (nid : ℕ) :
    ∀ (order : List ℕ) (ns ns2 : List GraphNode), nid ∉ order →
      order.foldlM (fun a o => processNode a sr ts o) ns = .ok ns2 →
      ns2[nid]? = ns[nid]? := by
  intro order
  induction order with
  | nil =>
    intro ns ns2 _ h
    simp only [List.foldlM_nil, Pure.pure, Except.pure, Except.ok.injEq] at h
    rw [h]
  | cons o rest ih =>
    intro ns ns2 hnid h
    simp only [List.foldlM_cons] at h
    cases hmid : processNode ns sr ts o with
    | error e =>
      rw [hmid] at h
      simp only [Bind.bind, Except.bind] at h
      simp at h
    | ok mid =>
      rw [hmid] at h
      simp only [Bind.bind, Except.bind] at h
      have hne : o ≠ nid := fun hc => hnid (hc ▸ List.mem_cons_self _ _)
      obtain ⟨nd, x, _, hmidset⟩ := processNode_ok_shape ns sr ts o mid hmid
      have h1 := ih mid ns2 (fun hc => hnid (List.mem_cons_of_mem _ hc)) h
      rw [h1, hmidset, List.getElem?_set_ne hne]

lemma process_ok_shape (g g2 : GenGraph) (h : g.process = .ok g2) :
    ∃ ns2, (g.get_execution_node_ids).foldlM
        (fun a o => processNode a g.sample_rate g.time_sample o) g.nodes = .ok ns2 ∧
      g2.nodes = ns2 := by
  have h2 : (List.foldlM (fun a o => processNode a g.sample_rate g.time_sample o)
        g.nodes g.get_execution_node_ids).bind
      (fun nodes2 =>
        Except.ok ({ g with nodes := nodes2, time_sample := g.time_sample + g.buffer_size } : GenGraph)) =
      .ok g2 := h
  cases hfold : List.foldlM (fun a o => processNode a g.sample_rate g.time_sample o)
      g.nodes g.get_execution_node_ids with
  | error e =>
    rw [hfold] at h2
    simp only [Except.bind] at h2
    simp at h2
  | ok ns2 =>
    rw [hfold] at h2
    simp only [Except.bind, Except.ok.injEq] at h2
    exact ⟨ns2, rfl, by rw [← h2]⟩

/-- C6: a node that participates in a dependency cycle never reaches zero
indegree in the Kahn traversal, is excluded from the execution order, and a
successful process() call leaves that node (generator state and output
buffers alike) untouched; the scheduler itself is a total function that
reports nothing about the dropped nodes. -/
theorem cycle_nodes_silently_excluded (g : GenGraph) (hwf : WF g) (nid : ℕ)
    (hcyc : OnCycle g nid) :
    nid ∉ g.get_execution_node_ids ∧
    (∀ g2, g.process = .ok g2 → g2.nodes[nid]? = g.nodes[nid]?) := by
  have hid := hwf.1
  obtain ⟨hnd, hmem, hcomp, hedges⟩ := exec_order_spec g hid
  have hone : ∀ s d, EdgeRel g s d → d ∈ g.get_execution_node_ids →
      s ∈ g.get_execution_node_ids ∧
      (g.get_execution_node_ids).indexOf s <
        (g.get_execution_node_ids).indexOf d := by
    intro s d he hd
    obtain ⟨hdlt, hs⟩ := (EdgeRel_iff_srcs g s d).mp he
    exact hedges d hd s hs
  have hexcl : nid ∉ g.get_execution_node_ids := by
    intro hin
    have htrans : ∀ s d, Relation.TransGen (EdgeRel g) s d →
        d ∈ g.get_execution_node_ids →
        s ∈ g.get_execution_node_ids ∧
        (g.get_execution_node_ids).indexOf s <
          (g.get_execution_node_ids).indexOf d := by
      intro s d hsd
      induction hsd with
      | single h1 => exact fun hd => hone _ _ h1 hd
      | tail _ h2 ih =>
        intro hd
        obtain ⟨hb, hib⟩ := hone _ _ h2 hd
        obtain ⟨hsm, his⟩ := ih hb
        exact ⟨hsm, lt_trans his hib⟩
    exact lt_irrefl _ (htrans nid nid hcyc hin).2
  refine ⟨hexcl, ?_⟩
  intro g2 hp
  obtain ⟨ns2, hfold, hnodes⟩ := process_ok_shape g g2 hp
  rw [hnodes]
  exact foldlM_processNode_untouched g.sample_rate g.time_sample nid
    g.get_execution_node_ids g.nodes ns2 hexcl hfold

theorem cycle_nodes_silently_excluded_witness :
    (0 ∉ wgCycle.get_execution_node_ids ∧
      (∀ g2, wgCycle.process = .ok g2 → g2.nodes[0]? = wgCycle.nodes[0]?)) ∧
    (∃ g2, wgCycle.process = .ok g2) := by
  constructor
  · exact cycle_nodes_silently_excluded wgCycle (by decide) 0
      (Relation.TransGen.head
        (⟨wgCycle.nodes.getD 1 default, by decide, ⟨0, 0, 0⟩, by decide, rfl⟩)
        (Relation.TransGen.single
          ⟨wgCycle.nodes.getD 0 default, by decide, ⟨1, 0, 0⟩, by decide, rfl⟩))
  · exact ⟨_, rfl⟩

lemma foldlM_set_preserve
    (f : List (List Sample) → NodeEdge → Except String (List (List Sample)))
    (hf : ∀ acc acc2 e, f acc e = .ok acc2 → ∃ buf, acc2 = acc.set e.input_index buf)
    (j : ℕ) :
    ∀ (l : List NodeEdge) (acc ins : List (List Sample)),
      (∀ e ∈ l, e.input_index ≠ j) → acc[j]? = some [] →
      l.foldlM f acc = .ok ins → ins[j]? = some [] := by
  intro l
  induction l with
  | nil =>
    intro acc ins _ hacc h
    simp only [List.foldlM_nil, Pure.pure, Except.pure, Except.ok.injEq] at h
    rw [← h]
    exact hacc
  | cons e l ih =>
    intro acc ins hun hacc h
    simp only [List.foldlM_cons] at h
    cases hstep : f acc e with
    | error msg =>
      rw [hstep] at h
      simp only [Bind.bind, Except.bind] at h
      simp at h
    | ok acc2 =>
      rw [hstep] at h
      simp only [Bind.bind, Except.bind] at h
      obtain ⟨buf, hset⟩ := hf acc acc2 e hstep
      refine ih acc2 ins (fun e2 he2 => hun e2 (List.mem_cons_of_mem _ he2)) ?_ h
      rw [hset, List.getElem?_set_ne (hun e (List.mem_cons_self _ _))]
      exact hacc

lemma gatherInputs_ok_empty_slice (nodes : List GraphNode) (k j : ℕ) (nd : GraphNode)
    (hj : j < nd.ug.input_names.length)
    (hunconn : ∀ e ∈ nd.inputs, e.input_index ≠ j)
    (ins : List (List Sample)) (h : gatherInputs nodes k nd = .ok ins) :
    ins[j]? = some [] := by
  unfold gatherInputs at h
  refine foldlM_set_preserve _ ?_ j nd.inputs _ ins hunconn ?_ h
  · intro acc acc2 e hstep
    split at hstep
    · exact absurd hstep (by simp)
    · split at hstep
      · exact absurd hstep (by simp)
      · split at hstep
        · exact absurd hstep (by simp)
        · split at hstep
          · exact ⟨_, (Except.ok.inj hstep).symm⟩
          · exact absurd hstep (by simp)
  · rw [List.getElem?_replicate, if_pos hj]

lemma sum_fold_error :
    ∀ (ins : List (List Sample)) (x : Sample), [] ∈ ins →
      ∃ msg, ins.foldlM (fun acc ain => do pure (acc + (← idxq ain 0))) x =
        .error msg := by
  intro ins
  induction ins with
  | nil => intro x h; cases h
  | cons a l ih =>
    intro x hmem
    cases a with
    | nil =>
      refine ⟨"index out of bounds", ?_⟩
      simp only [List.foldlM_cons]
      rfl
    | cons c cs =>
      have hl : [] ∈ l := by
        rcases List.mem_cons.mp hmem with h | h
        · cases h
        · exact h
      obtain ⟨msg, hmsg⟩ := ih (x + c) hl
      refine ⟨msg, ?_⟩
      simp only [List.foldlM_cons]
      have hstep : (do pure (x + (← idxq (c :: cs) 0)) :
          Except String Sample) = .ok (x + c) := by
        simp [idxq, Bind.bind, Except.bind, Pure.pure, Except.pure]
      rw [hstep]
      simp only [Bind.bind, Except.bind]
      exact hmsg

lemma sum_mapM2_error (a b : List Sample) (len : ℕ) (hlen : 0 < len)
    (hab : a = [] ∨ b = []) :
    ∃ msg, (List.range len).mapM
        (fun i => do pure ((← idxq a i) + (← idxq b i))) =
      (.error msg : Except String (List Sample)) := by
  obtain ⟨l, rfl⟩ : ∃ l, len = l + 1 := ⟨len - 1, by omega⟩
  rw [List.range_succ_eq_map]
  have herr : ∃ msg, (do pure ((← idxq a 0) + (← idxq b 0)) :
      Except String Sample) = .error msg := by
    rcases hab with h | h
    · subst h
      exact ⟨"index out of bounds",
        by simp [idxq, Bind.bind, Except.bind, Pure.pure, Except.pure]⟩
    · subst h
      cases a with
      | nil =>
        exact ⟨"index out of bounds",
          by simp [idxq, Bind.bind, Except.bind, Pure.pure, Except.pure]⟩
      | cons c cs =>
        exact ⟨"index out of bounds",
          by simp [idxq, Bind.bind, Except.bind, Pure.pure, Except.pure]⟩
  obtain ⟨msg, hmsg⟩ := herr
  refine ⟨msg, ?_⟩
  rw [List.mapM_cons, hmsg]
  rfl

lemma sum_mapMacc_error (ins : List (List Sample)) (len : ℕ) (hlen : 0 < len)
    (hmem : [] ∈ ins) :
    ∃ msg, (List.range len).mapM
        (fun i => ins.foldlM (fun acc ain => do pure (acc + (← idxq ain i)))
          (0 : Sample)) = (.error msg : Except String (List Sample)) := by
  obtain ⟨l, rfl⟩ : ∃ l, len = l + 1 := ⟨len - 1, by omega⟩
  rw [List.range_succ_eq_map]
  obtain ⟨msg, hmsg⟩ := sum_fold_error ins 0 hmem
  refine ⟨msg, ?_⟩
  rw [List.mapM_cons, hmsg]
  rfl

lemma sum_process_error (m : ℕ) (ins outs : List (List Sample)) (o : List Sample)
    (ho : outs[0]? = some o) (holen : 0 < o.length) (hmem : [] ∈ ins)
    (sr : Sample) (ts : ℕ) :
    ∃ msg, (UG.sum m).process ins outs sr ts = .error msg := by
  have hshape : (UG.sum m).process ins outs sr ts =
      (match outs[0]? with
       | none => .error "index out of bounds"
       | some o =>
         (if ins.length = 2 then
           match ins with
           | a :: b :: _ =>
             (List.range o.length).mapM
               (fun i => do pure ((← idxq a i) + (← idxq b i)))
           | _ => .error "index out of bounds"
         else
           (List.range o.length).mapM
             (fun i => ins.foldlM (fun acc ain => do pure (acc + (← idxq ain i)))
               (0 : Sample))
         ).map (fun newOut => (outs.set 0 newOut, UG.sum m))) := rfl
  rw [hshape, ho]
  by_cases hl : ins.length = 2
  · match ins, hl with
    | a :: b :: t, hl =>
      have ht : t = [] := by
        simp only [List.length_cons] at hl
        exact List.eq_nil_of_length_eq_zero (by omega)
      have hab : a = [] ∨ b = [] := by
        subst ht
        rcases List.mem_cons.mp hmem with h | h
        · exact Or.inl h.symm
        · rcases List.mem_cons.mp h with h2 | h2
          · exact Or.inr h2.symm
          · cases h2
      obtain ⟨msg, hmsg⟩ := sum_mapM2_error a b o.length holen hab
      refine ⟨msg, ?_⟩
      simp only [if_pos hl]
      rw [hmsg]
      rfl
  · obtain ⟨msg, hmsg⟩ := sum_mapMacc_error ins o.length holen hmem
    refine ⟨msg, ?_⟩
    simp only [if_neg hl]
    rw [hmsg]
    rfl

lemma processNode_ok_struct (ns : List GraphNode) (sr : Sample) (ts o : ℕ)
    (m : List GraphNode) (h : processNode ns sr ts o = .ok m) :
    ∃ nd ins r, ns[o]? = some nd ∧ gatherInputs ns o nd = .ok ins ∧
      nd.ug.process ins nd.outputs sr ts = .ok r ∧
      m = ns.set o { nd with ug := r.2, outputs := r.1 } := by
  unfold processNode at h
  split at h
  · exact absurd h (by simp)
  · rename_i nd hnode
    cases hins : gatherInputs ns o nd with
    | error e =>
      rw [hins] at h
      simp only [Bind.bind, Except.bind] at h
      simp at h
    | ok ins =>
      rw [hins] at h
      simp only [Bind.bind, Except.bind] at h
      cases hr : nd.ug.process ins nd.outputs sr ts with
      | error e =>
        rw [hr] at h
        simp at h
      | ok r =>
        rw [hr] at h
        simp only [Pure.pure, Except.pure, Except.ok.injEq] at h
        exact ⟨nd, ins, r, hnode, hins, hr, h.symm⟩

lemma foldlM_processNode_sum_error (sr : Sample) (ts : ℕ) (k j m : ℕ) :
    ∀ (order : List ℕ) (ns : List GraphNode) (nd : GraphNode),
      k ∈ order → ns[k]? = some nd → nd.ug = .sum m →
      (∀ e ∈ nd.inputs, e.input_index ≠ j) →
      j < (UG.sum m).input_names.length →
      (∃ o, nd.outputs[0]? = some o ∧ 0 < o.length) →
      ∃ msg, order.foldlM (fun a o => processNode a sr ts o) ns = .error msg := by
  intro order
  induction order with
  | nil => intro ns nd hk; cases hk
  | cons o rest ih =>
    intro ns nd hk hnd hug hunconn hj houts
    simp only [List.foldlM_cons]
    cases hstep : processNode ns sr ts o with
    | error msg =>
      refine ⟨msg, ?_⟩
      simp only [Bind.bind, Except.bind]
    | ok mid =>
      by_cases hok : o = k
      · exfalso
        subst hok
        obtain ⟨nd2, ins, r, hnd2, hins, hr, _⟩ :=
          processNode_ok_struct ns sr ts o mid hstep
        rw [hnd] at hnd2
        have hnd2e : nd2 = nd := (Option.some.inj hnd2).symm
        subst hnd2e
        have hjn : j < nd2.ug.input_names.length := by rw [hug]; exact hj
        have hempty := gatherInputs_ok_empty_slice ns o j nd2 hjn hunconn ins hins
        have hmem : [] ∈ ins := by
          obtain ⟨hlt, hget⟩ := List.getElem?_eq_some.mp hempty
          exact hget ▸ List.getElem_mem hlt
        obtain ⟨o2, ho2, ho2len⟩ := houts
        obtain ⟨msg, hmsg⟩ := sum_process_error m ins nd2.outputs o2 ho2 ho2len hmem sr ts
        rw [hug] at hr
        rw [hr] at hmsg
        exact absurd hmsg (by simp)
      · obtain ⟨nd3, x, _, hset⟩ := processNode_ok_shape ns sr ts o mid hstep
        have hmid : mid[k]? = some nd := by
          rw [hset, List.getElem?_set_ne hok]
          exact hnd
        have hkrest : k ∈ rest := by
          rcases List.mem_cons.mp hk with h | h
          · exact absurd h.symm hok
          · exact h
        obtain ⟨msg, hmsg⟩ := ih mid nd hkrest hmid hug hunconn hj houts
        refine ⟨msg, ?_⟩
        simp only [Bind.bind, Except.bind]
        exact hmsg

lemma process_error_of_fold (g : GenGraph) (msg : String)
    (h : List.foldlM (fun a o => processNode a g.sample_rate g.time_sample o)
        g.nodes g.get_execution_node_ids = .error msg) :
    g.process = .error msg := by
  have h2 : g.process = (List.foldlM
      (fun a o => processNode a g.sample_rate g.time_sample o)
      g.nodes g.get_execution_node_ids).bind
      (fun nodes2 =>
        Except.ok ({ g with nodes := nodes2, time_sample := g.time_sample + g.buffer_size } : GenGraph)) :=
    rfl
  rw [h2, h]
  rfl

/-- C10 amended: in a wellformed graph with nonzero block size, a UGSum node
that appears in the execution order and has a declared input port with no
incoming edge makes process() fail with the out-of-bounds panic: UGSum
declares no default input, the processor hands it an empty slice for the
unconnected port, and UGSum::process indexes that slice directly. -/
theorem sum_unconnected_panics (g : GenGraph) (hwf : WF g) (hbs : 0 < g.buffer_size)
    (k m j : ℕ) (nd : GraphNode) (hnd : g.nodes[k]? = some nd) (hug : nd.ug = .sum m)
    (hj : j < (UG.sum m).input_names.length)
    (hunconn : ∀ e ∈ nd.inputs, e.input_index ≠ j)
    (hk : k ∈ g.get_execution_node_ids) :
    (∀ s, (UG.sum m).default_input s = none) ∧ ∃ msg, g.process = .error msg := by
  refine ⟨fun s => rfl, ?_⟩
  have hmemnd : nd ∈ g.nodes := by
    obtain ⟨hlt, hget⟩ := List.getElem?_eq_some.mp hnd
    exact hget ▸ List.getElem_mem hlt
  obtain ⟨hlen, hblen⟩ := hwf.2.2.2.2 nd hmemnd
  have houts : ∃ o, nd.outputs[0]? = some o ∧ 0 < o.length := by
    have h1 : 0 < nd.outputs.length := by
      rw [hlen, hug]
      simp [UG.output_names]
    refine ⟨nd.outputs[0], List.getElem?_eq_getElem h1, ?_⟩
    rw [hblen _ (List.getElem_mem h1)]
    exact hbs
  obtain ⟨msg, hmsg⟩ := foldlM_processNode_sum_error g.sample_rate g.time_sample k j m
    g.get_execution_node_ids g.nodes nd hk hnd hug hunconn hj houts
  exact ⟨msg, process_error_of_fold g msg hmsg⟩

theorem sum_unconnected_panics_witness :
    (∀ s, (UG.sum 2).default_input s = none) ∧
    ∃ msg, wgSumPartial.process = .error msg :=
  sum_unconnected_panics wgSumPartial (by decide) (by decide) 1 2 1
    (wgSumPartial.nodes.getD 1 default) (by decide) (by decide) (by decide)
    (by decide) (by decide)

/-- C10 counterexample: a graph whose UGSum node has unconnected declared
inputs does not always make process() panic.  With block size 0 the per
sample loop body never runs, and a UGSum on a dependency cycle (self edge
into in1, in2 unconnected, block size 4) is excluded from the execution
order and never processed; both process() calls succeed. -/
theorem sum_unconnected_counterexample :
    ((((GenGraph.new 8 0).add_node "s1" (.sum 2)).2.nodes.getD 0 default).inputs = []) ∧
    (∃ gr, ((GenGraph.new 8 0).add_node "s1" (.sum 2)).2.process = .ok gr) ∧
    (∃ gr, ((((GenGraph.new 8 4).add_node "s1" (.sum 2)).2).connect
        "s1.out" "s1.in1").2.process = .ok gr) := by
  refine ⟨by decide, ⟨_, rfl⟩, ⟨_, rfl⟩⟩

/-! Recorder machinery: success and shape of a full block-processing step on
a wellformed acyclic graph, preservation of the structural invariant across
process() calls, label bookkeeping, and the amended shape statement. -/

lemma set_of_getElem_self {α : Type} :
    ∀ (l : List α) (i : ℕ) (a : α), l[i]? = some a → l.set i a = l
  | [], i, a, h => by simp at h
  | x :: l, 0, a, h => by
    simp only [List.getElem?_cons_zero, Option.some.injEq] at h
    rw [List.set_cons_zero, h]
  | x :: l, i + 1, a, h => by
    simp only [List.getElem?_cons_succ] at h
    rw [List.set_cons_succ, set_of_getElem_self l i a h]

lemma ug_output_names (u : UG) : u.output_names = ["out"] := by
  cases u <;> rfl

lemma sumArity_sum {u : UG} {m : ℕ} (h : sumArity u = some m) : u = .sum m := by
  cases u with
  | const v => simp [sumArity] at h
  | sum k => simp only [sumArity, Option.some.injEq] at h; rw [h]
  | white a b c d => simp [sumArity] at h

lemma mapM_ok_length {α β : Type} (f : α → Except String β) :
    ∀ (l : List α) (r : List β), l.mapM f = .ok r → r.length = l.length
  | [], r, h => by
    simp only [List.mapM_nil, Pure.pure, Except.pure, Except.ok.injEq] at h
    rw [← h]
    rfl
  | a :: l, r, h => by
    rw [List.mapM_cons] at h
    cases hfa : f a with
    | error e =>
      rw [hfa] at h
      simp only [Bind.bind, Except.bind] at h
      simp at h
    | ok b =>
      rw [hfa] at h
      simp only [Bind.bind, Except.bind] at h
      cases hml : l.mapM f with
      | error e => rw [hml] at h; simp at h
      | ok bs =>
        rw [hml] at h
        simp only [Pure.pure, Except.pure, Except.ok.injEq] at h
        rw [← h]
        simp [mapM_ok_length f l bs hml]

lemma mapM_ok_of_forall {α β : Type} (f : α → Except String β) :
    ∀ (l : List α), (∀ x ∈ l, ∃ y, f x = .ok y) → ∃ r, l.mapM f = .ok r
  | [], _ => ⟨[], by rw [List.mapM_nil]; rfl⟩
  | a :: l, h => by
    obtain ⟨b, hb⟩ := h a (List.mem_cons_self a l)
    obtain ⟨bs, hbs⟩ :=
      mapM_ok_of_forall f l (fun x hx => h x (List.mem_cons_of_mem a hx))
    refine ⟨b :: bs, ?_⟩
    rw [List.mapM_cons, hb]
    simp only [Bind.bind, Except.bind]
    rw [hbs]
    rfl

lemma foldlM_ok_of_forall {α β : Type} (f : β → α → Except String β) :
    ∀ (l : List α) (acc : β),
      (∀ x ∈ l, ∀ b, ∃ b2, f b x = .ok b2) → ∃ r, l.foldlM f acc = .ok r
  | [], acc, _ => ⟨acc, by rw [List.foldlM_nil]; rfl⟩
  | a :: l, acc, h => by
    obtain ⟨b2, hb2⟩ := h a (List.mem_cons_self a l) acc
    obtain ⟨r, hr⟩ :=
      foldlM_ok_of_forall f l b2 (fun x hx => h x (List.mem_cons_of_mem a hx))
    refine ⟨r, ?_⟩
    rw [List.foldlM_cons, hb2]
    simp only [Bind.bind, Except.bind]
    exact hr

lemma foldlM_ok_len
    (f : List (List Sample) → NodeEdge → Except String (List (List Sample)))
    (L : ℕ) :
    ∀ (l : List NodeEdge) (acc : List (List Sample)), acc.length = L →
      (∀ e ∈ l, ∀ acc2 : List (List Sample), acc2.length = L →
        ∃ acc3, f acc2 e = .ok acc3 ∧ acc3.length = L) →
      ∃ r, l.foldlM f acc = .ok r ∧ r.length = L
  | [], acc, hacc, _ => ⟨acc, by rw [List.foldlM_nil]; rfl, hacc⟩
  | e :: l, acc, hacc, h => by
    obtain ⟨acc3, hacc3, hlen3⟩ := h e (List.mem_cons_self e l) acc hacc
    obtain ⟨r, hr, hrlen⟩ :=
      foldlM_ok_len f L l acc3 hlen3 (fun x hx => h x (List.mem_cons_of_mem e hx))
    refine ⟨r, ?_, hrlen⟩
    rw [List.foldlM_cons, hacc3]
    simp only [Bind.bind, Except.bind]
    exact hr

lemma foldlM_set_covered (bs : ℕ)
    (f : List (List Sample) → NodeEdge → Except String (List (List Sample)))
    (hf : ∀ acc acc2 e, f acc e = .ok acc2 →
      ∃ buf, acc2 = acc.set e.input_index buf ∧ buf.length = bs) :
    ∀ (l : List NodeEdge) (acc ins : List (List Sample)),
      l.foldlM f acc = .ok ins →
      ∀ j, j < acc.length →
        ((∃ b, acc[j]? = some b ∧ b.length = bs) ∨ (∃ e ∈ l, e.input_index = j)) →
        ∃ b, ins[j]? = some b ∧ b.length = bs
  | [], acc, ins, h => by
    intro j hj hd
    simp only [List.foldlM_nil, Pure.pure, Except.pure, Except.ok.injEq] at h
    rcases hd with ⟨b, hb, hlen⟩ | ⟨e, he, _⟩
    · exact ⟨b, h ▸ hb, hlen⟩
    · cases he
  | e :: l, acc, ins, h => by
    intro j hj hd
    rw [List.foldlM_cons] at h
    cases hstep : f acc e with
    | error msg =>
      rw [hstep] at h
      simp only [Bind.bind, Except.bind] at h
      simp at h
    | ok acc2 =>
      rw [hstep] at h
      simp only [Bind.bind, Except.bind] at h
      obtain ⟨buf, hset, hbuflen⟩ := hf acc acc2 e hstep
      have hlen2 : acc2.length = acc.length := by rw [hset, List.length_set]
      refine foldlM_set_covered bs f hf l acc2 ins h j (by omega) ?_
      by_cases hje : e.input_index = j
      · left
        refine ⟨buf, ?_, hbuflen⟩
        rw [hset, hje, List.getElem?_set_self (by omega)]
      · rcases hd with ⟨b, hb, hlenb⟩ | ⟨e2, he2, hij⟩
        · left
          refine ⟨b, ?_, hlenb⟩
          rw [hset, List.getElem?_set_ne hje]
          exact hb
        · rcases List.mem_cons.mp he2 with heq | hmem
          · exact absurd (heq ▸ hij) hje
          · right
            exact ⟨e2, hmem, hij⟩

lemma whiteBlock_aux (minIn maxIn : List Sample) (dmin dmax : Sample) :
    ∀ (l : List ℕ) (acc : List Sample × StdRng),
      ((l.foldl
        (fun (acc : List Sample × StdRng) i =>
          let mn := minIn.getD i dmin
          let mx := maxIn.getD i dmax
          let (v, r2) := acc.2.random_range mn mx
          (acc.1 ++ [v], r2))
        acc).1).length = acc.1.length + l.length := by
  intro l
  induction l with
  | nil => intro acc; simp
  | cons x l ih =>
    intro acc
    rw [List.foldl_cons, ih]
    simp [StdRng.random_range, StdRng.nextRaw]
    omega

lemma whiteBlock_fst_length (minIn maxIn : List Sample) (dmin dmax : Sample)
    (rng : StdRng) (len : ℕ) :
    (whiteBlock minIn maxIn dmin dmax rng len).1.length = len := by
  unfold whiteBlock
  rw [whiteBlock_aux minIn maxIn dmin dmax (List.range len) ([], rng)]
  simp

lemma idxq_ok (a : List Sample) (i : ℕ) (h : i < a.length) :
    ∃ y, idxq a i = .ok y :=
  ⟨a.get ⟨i, h⟩, by
    unfold idxq
    rw [List.getElem?_eq_getElem h]
    rfl⟩

lemma ug_process_ok (u : UG) (ins outs : List (List Sample)) (sr : Sample)
    (ts : ℕ) (outs2 : List (List Sample)) (u2 : UG)
    (h : u.process ins outs sr ts = .ok (outs2, u2)) :
    u2.output_names = u.output_names ∧ u2.input_names = u.input_names ∧
    sumArity u2 = sumArity u ∧
    ∃ o newOut, outs[0]? = some o ∧ newOut.length = o.length ∧
      outs2 = outs.set 0 newOut := by
  cases u with
  | const v =>
    have hm : (UG.const v).process ins outs sr ts =
        (match outs[0]? with
        | none => .error "index out of bounds"
        | some o => .ok (outs.set 0 (o.map fun _ => v), .const v)) := rfl
    cases ho : outs[0]? with
    | none =>
      have hm2 : (UG.const v).process ins outs sr ts =
          .error "index out of bounds" := by rw [hm, ho]
      rw [hm2] at h
      exact absurd h (by simp)
    | some o =>
      have hm2 : (UG.const v).process ins outs sr ts =
          .ok (outs.set 0 (o.map fun _ => v), .const v) := by rw [hm, ho]
      rw [hm2] at h
      simp only [Except.ok.injEq, Prod.mk.injEq] at h
      obtain ⟨h1, h2⟩ := h
      subst h2
      exact ⟨rfl, rfl, rfl, o, o.map (fun _ => v), rfl, by simp, h1.symm⟩
  | sum m =>
    have hm : (UG.sum m).process ins outs sr ts =
        (match outs[0]? with
         | none => .error "index out of bounds"
         | some o =>
           (if ins.length = 2 then
             match ins with
             | a :: b :: _ =>
               (List.range o.length).mapM
                 (fun i => do pure ((← idxq a i) + (← idxq b i)))
             | _ => .error "index out of bounds"
           else
             (List.range o.length).mapM
               (fun i => ins.foldlM
                 (fun acc ain => do pure (acc + (← idxq ain i))) (0 : Sample))
           ).map (fun newOut => (outs.set 0 newOut, UG.sum m))) := rfl
    cases ho : outs[0]? with
    | none =>
      have hm2 : (UG.sum m).process ins outs sr ts =
          .error "index out of bounds" := by rw [hm, ho]
      rw [hm2] at h
      exact absurd h (by simp)
    | some o =>
      have hm2 : (UG.sum m).process ins outs sr ts =
          ((if ins.length = 2 then
             match ins with
             | a :: b :: _ =>
               (List.range o.length).mapM
                 (fun i => do pure ((← idxq a i) + (← idxq b i)))
             | _ => .error "index out of bounds"
           else
             (List.range o.length).mapM
               (fun i => ins.foldlM
                 (fun acc ain => do pure (acc + (← idxq ain i))) (0 : Sample))
           ).map (fun newOut => (outs.set 0 newOut, UG.sum m))) := by rw [hm, ho]
      rw [hm2] at h
      by_cases hl : ins.length = 2
      · rw [if_pos hl] at h
        match ins, hl, h with
        | a :: b :: t, hl, h =>
          have h3 : Except.map (fun newOut => (outs.set 0 newOut, UG.sum m))
              ((List.range o.length).mapM
                (fun i => do pure ((← idxq a i) + (← idxq b i)))) =
              Except.ok (outs2, u2) := h
          cases hX : (List.range o.length).mapM
              (fun i => do pure ((← idxq a i) + (← idxq b i))) with
          | error e =>
            rw [hX] at h3
            simp [Except.map] at h3
          | ok newOut =>
            rw [hX] at h3
            simp only [Except.map, Except.ok.injEq, Prod.mk.injEq] at h3
            obtain ⟨h1, h2⟩ := h3
            subst h2
            refine ⟨rfl, rfl, rfl, o, newOut, rfl, ?_, h1.symm⟩
            rw [mapM_ok_length _ _ _ hX, List.length_range]
      · rw [if_neg hl] at h
        cases hX : (List.range o.length).mapM
            (fun i => ins.foldlM
              (fun acc ain => do pure (acc + (← idxq ain i))) (0 : Sample)) with
        | error e =>
          rw [hX] at h
          simp [Except.map] at h
        | ok newOut =>
          rw [hX] at h
          simp only [Except.map, Except.ok.injEq, Prod.mk.injEq] at h
          obtain ⟨h1, h2⟩ := h
          subst h2
          refine ⟨rfl, rfl, rfl, o, newOut, rfl, ?_, h1.symm⟩
          rw [mapM_ok_length _ _ _ hX, List.length_range]
  | white dmin dmax rng seed =>
    have hm : (UG.white dmin dmax rng seed).process ins outs sr ts =
        (match outs[0]? with
         | none => .error "index out of bounds"
         | some o =>
           match whiteBlock (ins.getD 0 []) (ins.getD 1 []) dmin dmax rng
               o.length with
           | (newOut, rng2) =>
             Except.ok (outs.set 0 newOut, UG.white dmin dmax rng2 seed)) := rfl
    cases ho : outs[0]? with
    | none =>
      have hm2 : (UG.white dmin dmax rng seed).process ins outs sr ts =
          .error "index out of bounds" := by rw [hm, ho]
      rw [hm2] at h
      exact absurd h (by simp)
    | some o =>
      have hm2 : (UG.white dmin dmax rng seed).process ins outs sr ts =
          (match whiteBlock (ins.getD 0 []) (ins.getD 1 []) dmin dmax rng
              o.length with
          | (newOut, rng2) =>
            Except.ok (outs.set 0 newOut, UG.white dmin dmax rng2 seed)) := by
        rw [hm, ho]
      rw [hm2] at h
      rcases hwb : whiteBlock (ins.getD 0 []) (ins.getD 1 []) dmin dmax rng
          o.length with ⟨a, b⟩
      rw [hwb] at h
      simp only [Except.ok.injEq, Prod.mk.injEq] at h
      obtain ⟨h3, h4⟩ := h
      subst h4
      refine ⟨rfl, rfl, rfl, o, a, rfl, ?_, h3.symm⟩
      have hbl := whiteBlock_fst_length (ins.getD 0 []) (ins.getD 1 []) dmin dmax
        rng o.length
      rw [hwb] at hbl
      exact hbl

lemma ug_process_succeeds (u : UG) (ins outs : List (List Sample)) (sr : Sample)
    (ts : ℕ) (bs : ℕ) (o : List Sample) (ho : outs[0]? = some o)
    (holen : o.length = bs)
    (hsum : ∀ m, u = .sum m → ∀ a ∈ ins, bs ≤ a.length) :
    ∃ r, u.process ins outs sr ts = .ok r := by
  cases u with
  | const v =>
    have hm : (UG.const v).process ins outs sr ts =
        (match outs[0]? with
        | none => .error "index out of bounds"
        | some o => .ok (outs.set 0 (o.map fun _ => v), .const v)) := rfl
    exact ⟨_, by rw [hm, ho]⟩
  | sum m =>
    have hm : (UG.sum m).process ins outs sr ts =
        (match outs[0]? with
         | none => .error "index out of bounds"
         | some o =>
           (if ins.length = 2 then
             match ins with
             | a :: b :: _ =>
               (List.range o.length).mapM
                 (fun i => do pure ((← idxq a i) + (← idxq b i)))
             | _ => .error "index out of bounds"
           else
             (List.range o.length).mapM
               (fun i => ins.foldlM
                 (fun acc ain => do pure (acc + (← idxq ain i))) (0 : Sample))
           ).map (fun newOut => (outs.set 0 newOut, UG.sum m))) := rfl
    have hm2 : (UG.sum m).process ins outs sr ts =
        ((if ins.length = 2 then
           match ins with
           | a :: b :: _ =>
             (List.range o.length).mapM
               (fun i => do pure ((← idxq a i) + (← idxq b i)))
           | _ => .error "index out of bounds"
         else
           (List.range o.length).mapM
             (fun i => ins.foldlM
               (fun acc ain => do pure (acc + (← idxq ain i))) (0 : Sample))
         ).map (fun newOut => (outs.set 0 newOut, UG.sum m))) := by rw [hm, ho]
    rw [hm2]
    by_cases hl : ins.length = 2
    · rw [if_pos hl]
      match ins, hl, hsum with
      | a :: b :: t, hl, hsum =>
        have hmap : ∃ newOut, (List.range o.length).mapM
            (fun i => do pure ((← idxq a i) + (← idxq b i))) = .ok newOut := by
          refine mapM_ok_of_forall _ _ ?_
          intro i hi
          have hilt : i < bs := holen ▸ List.mem_range.mp hi
          obtain ⟨ya, hya⟩ := idxq_ok a i
            (lt_of_lt_of_le hilt (hsum m rfl a (by simp)))
          obtain ⟨yb, hyb⟩ := idxq_ok b i
            (lt_of_lt_of_le hilt (hsum m rfl b (by simp)))
          refine ⟨ya + yb, ?_⟩
          simp only [Bind.bind, Except.bind, hya, hyb]
          rfl
        obtain ⟨newOut, hX⟩ := hmap
        have hgoal : Except.map
            (fun newOut => (outs.set 0 newOut, UG.sum m))
            ((List.range o.length).mapM
              (fun i => do pure ((← idxq a i) + (← idxq b i)))) =
            Except.ok (outs.set 0 newOut, UG.sum m) := by
          rw [hX]
          rfl
        exact ⟨(outs.set 0 newOut, .sum m), hgoal⟩
    · rw [if_neg hl]
      have hmap : ∃ newOut, (List.range o.length).mapM
          (fun i => ins.foldlM
            (fun acc ain => do pure (acc + (← idxq ain i))) (0 : Sample)) =
          .ok newOut := by
        refine mapM_ok_of_forall _ _ ?_
        intro i hi
        have hilt : i < bs := holen ▸ List.mem_range.mp hi
        refine foldlM_ok_of_forall _ ins 0 ?_
        intro ain hain acc
        obtain ⟨y, hy⟩ := idxq_ok ain i
          (lt_of_lt_of_le hilt (hsum m rfl ain hain))
        refine ⟨acc + y, ?_⟩
        simp only [Bind.bind, Except.bind, hy]
        rfl
      obtain ⟨newOut, hX⟩ := hmap
      rw [hX]
      exact ⟨_, rfl⟩
  | white dmin dmax rng seed =>
    have hm : (UG.white dmin dmax rng seed).process ins outs sr ts =
        (match outs[0]? with
         | none => .error "index out of bounds"
         | some o =>
           match whiteBlock (ins.getD 0 []) (ins.getD 1 []) dmin dmax rng
               o.length with
           | (newOut, rng2) =>
             Except.ok (outs.set 0 newOut, UG.white dmin dmax rng2 seed)) := rfl
    have hm2 : (UG.white dmin dmax rng seed).process ins outs sr ts =
        (match whiteBlock (ins.getD 0 []) (ins.getD 1 []) dmin dmax rng
            o.length with
        | (newOut, rng2) =>
          Except.ok (outs.set 0 newOut, UG.white dmin dmax rng2 seed)) := by
      rw [hm, ho]
    rw [hm2]
    rcases whiteBlock (ins.getD 0 []) (ins.getD 1 []) dmin dmax rng o.length
      with ⟨a, b⟩
    exact ⟨_, rfl⟩

lemma mem_of_getElem_some {α : Type} {l : List α} {i : ℕ} {a : α}
    (h : l[i]? = some a) : a ∈ l := by
  obtain ⟨hlt, hg⟩ := List.getElem?_eq_some.mp h
  exact hg ▸ List.getElem_mem hlt

lemma nodeShape_parts {a b : GraphNode} (h : nodeShape a = nodeShape b) :
    a.id = b.id ∧ a.name = b.name ∧ a.inputs = b.inputs ∧
    a.ug.output_names = b.ug.output_names ∧
    a.ug.input_names = b.ug.input_names ∧
    sumArity a.ug = sumArity b.ug := by
  simp only [nodeShape, Prod.mk.injEq] at h
  exact h

lemma NodesInv.len {g0 : GenGraph} {ns : List GraphNode} (h : NodesInv g0 ns) :
    ns.length = g0.nodes.length := by
  have h2 := congrArg List.length h.1
  simpa using h2

lemma NodesInv.shape_at {g0 : GenGraph} {ns : List GraphNode}
    (h : NodesInv g0 ns) (i : ℕ) (nd : GraphNode) (hget : ns[i]? = some nd) :
    ∃ nd0, g0.nodes[i]? = some nd0 ∧ nodeShape nd = nodeShape nd0 := by
  have hm := congrArg (fun l => l[i]?) h.1
  simp only [List.getElem?_map] at hm
  rw [hget] at hm
  cases h0 : g0.nodes[i]? with
  | none => rw [h0] at hm; simp at hm
  | some nd0 =>
    rw [h0] at hm
    exact ⟨nd0, rfl, by simpa using hm⟩

lemma gatherInputs_ok (ns : List GraphNode) (bs : ℕ) (nid : ℕ)
    (nd : GraphNode)
    (hout : ∀ nd2 ∈ ns, ∀ b ∈ nd2.outputs, b.length = bs)
    (hedge : ∀ e ∈ nd.inputs, e.src ≠ nid ∧ e.src < ns.length ∧
      (∀ src_node, ns[e.src]? = some src_node →
        e.output_index < src_node.outputs.length) ∧
      e.input_index < nd.ug.input_names.length) :
    ∃ ins, gatherInputs ns nid nd = .ok ins ∧
      ins.length = nd.ug.input_names.length ∧
      ∀ j, j < nd.ug.input_names.length →
        (∃ e ∈ nd.inputs, e.input_index = j) →
        ∃ b, ins[j]? = some b ∧ b.length = bs := by
  have hstep : ∀ e ∈ nd.inputs, ∀ acc2 : List (List Sample),
      acc2.length = nd.ug.input_names.length →
      ∃ acc3, (fun acc e =>
        if e.src = nid then
          (.error "index out of bounds" : Except String (List (List Sample)))
        else
          match ns[e.src]? with
          | none => .error "index out of bounds"
          | some src_node =>
            match src_node.outputs[e.output_index]? with
            | none => .error "index out of bounds"
            | some buf =>
              if e.input_index < acc.length then .ok (acc.set e.input_index buf)
              else .error "index out of bounds") acc2 e = .ok acc3 ∧
        acc3.length = nd.ug.input_names.length := by
    intro e he acc2 hacc2
    obtain ⟨hne, hlt, hoi, hii⟩ := hedge e he
    have hsrc : ns[e.src]? = some (ns.get ⟨e.src, hlt⟩) :=
      List.getElem?_eq_getElem hlt
    have hob : e.output_index < (ns.get ⟨e.src, hlt⟩).outputs.length :=
      hoi _ hsrc
    have hbufe : (ns.get ⟨e.src, hlt⟩).outputs[e.output_index]? =
        some ((ns.get ⟨e.src, hlt⟩).outputs.get ⟨e.output_index, hob⟩) :=
      List.getElem?_eq_getElem hob
    refine ⟨acc2.set e.input_index
      ((ns.get ⟨e.src, hlt⟩).outputs.get ⟨e.output_index, hob⟩), ?_, by
        rw [List.length_set]; exact hacc2⟩
    beta_reduce
    rw [if_neg hne]
    simp only [hsrc, hbufe]
    rw [if_pos (by rw [hacc2]; exact hii)]
  obtain ⟨ins, hfold, hlen⟩ := foldlM_ok_len _ nd.ug.input_names.length
    nd.inputs (List.replicate nd.ug.input_names.length []) (by simp) hstep
  refine ⟨ins, hfold, hlen, ?_⟩
  intro j hj hcov
  have hf2 : ∀ (acc acc2 : List (List Sample)) (e : NodeEdge),
      (fun acc e =>
        if e.src = nid then
          (.error "index out of bounds" : Except String (List (List Sample)))
        else
          match ns[e.src]? with
          | none => .error "index out of bounds"
          | some src_node =>
            match src_node.outputs[e.output_index]? with
            | none => .error "index out of bounds"
            | some buf =>
              if e.input_index < acc.length then .ok (acc.set e.input_index buf)
              else .error "index out of bounds") acc e = .ok acc2 →
      ∃ buf, acc2 = acc.set e.input_index buf ∧ buf.length = bs := by
    intro acc acc2 e h
    beta_reduce at h
    split at h
    · exact absurd h (by simp)
    · split at h
      · exact absurd h (by simp)
      · rename_i src_node hsrc
        split at h
        · exact absurd h (by simp)
        · rename_i buf hbuf
          split at h
          · refine ⟨buf, (Except.ok.inj h).symm, ?_⟩
            exact hout src_node (mem_of_getElem_some hsrc) buf
              (mem_of_getElem_some hbuf)
          · exact absurd h (by simp)
  refine foldlM_set_covered bs _ hf2 nd.inputs
    (List.replicate nd.ug.input_names.length []) ins hfold j
    (by rw [List.length_replicate]; exact hj) (Or.inr hcov)

lemma processNode_inv (g0 : GenGraph) (hbs : 0 < g0.buffer_size)
    (hedges0 : ∀ (i : ℕ) (nd0 : GraphNode), g0.nodes[i]? = some nd0 → ∀ e ∈ nd0.inputs,
      e.src ≠ i ∧ e.src < g0.nodes.length ∧
      e.output_index < (g0.nodes.getD e.src default).ug.output_names.length ∧
      e.input_index < nd0.ug.input_names.length)
    (hfull0 : ∀ nd0 ∈ g0.nodes, ∀ m, nd0.ug = .sum m →
      ∀ j, j < nd0.ug.input_names.length → ∃ e ∈ nd0.inputs, e.input_index = j)
    (ns : List GraphNode) (hinv : NodesInv g0 ns) (sr : Sample) (ts nid : ℕ)
    (hnid : nid < ns.length) :
    ∃ ns2, processNode ns sr ts nid = .ok ns2 ∧ NodesInv g0 ns2 := by
  obtain ⟨nd, hget⟩ : ∃ nd, ns[nid]? = some nd :=
    ⟨_, List.getElem?_eq_getElem hnid⟩
  obtain ⟨nd0, hget0, hsh⟩ := NodesInv.shape_at hinv nid nd hget
  obtain ⟨hideq, hnameeq, hinputseq, honeq, hineq, hsumeq⟩ := nodeShape_parts hsh
  have hndmem : nd ∈ ns := mem_of_getElem_some hget
  obtain ⟨holen, hoblen⟩ := hinv.2 nd hndmem
  have hedge : ∀ e ∈ nd.inputs, e.src ≠ nid ∧ e.src < ns.length ∧
      (∀ src_node, ns[e.src]? = some src_node →
        e.output_index < src_node.outputs.length) ∧
      e.input_index < nd.ug.input_names.length := by
    intro e he
    have he0 : e ∈ nd0.inputs := hinputseq ▸ he
    obtain ⟨hne, hlt, hoi, hii⟩ := hedges0 nid nd0 hget0 e he0
    refine ⟨hne, by rw [NodesInv.len hinv]; exact hlt, ?_,
      by rw [hineq]; exact hii⟩
    intro src_node hsrc
    obtain ⟨s0, hs0, hshs⟩ := NodesInv.shape_at hinv e.src src_node hsrc
    obtain ⟨_, _, _, hon, _, _⟩ := nodeShape_parts hshs
    have h1 := (hinv.2 src_node (mem_of_getElem_some hsrc)).1
    have hgd : g0.nodes.getD e.src default = s0 := by
      obtain ⟨hlt0, hg⟩ := List.getElem?_eq_some.mp hs0
      rw [List.getD_eq_getElem _ _ hlt0, hg]
    rw [h1, hon]
    rw [hgd] at hoi
    exact hoi
  obtain ⟨ins, hgather, hinslen, hcov⟩ := gatherInputs_ok ns g0.buffer_size nid
    nd (fun nd2 hm => (hinv.2 nd2 hm).2) hedge
  have hol1 : nd.outputs.length = 1 := by
    rw [holen, ug_output_names]
    rfl
  obtain ⟨o, ho⟩ : ∃ o, nd.outputs[0]? = some o :=
    ⟨_, List.getElem?_eq_getElem (by omega)⟩
  have holen2 : o.length = g0.buffer_size := hoblen o (mem_of_getElem_some ho)
  have hsum : ∀ m, nd.ug = .sum m → ∀ a ∈ ins, g0.buffer_size ≤ a.length := by
    intro m hm a ha
    have hnd0sum : nd0.ug = .sum m := by
      refine sumArity_sum ?_
      rw [← hsumeq, hm]
      rfl
    have hcov0 := hfull0 nd0 (mem_of_getElem_some hget0) m hnd0sum
    obtain ⟨j, hjlt, hja⟩ := List.getElem_of_mem ha
    have hjlt2 : j < nd.ug.input_names.length := hinslen ▸ hjlt
    have hcovj : ∃ e ∈ nd.inputs, e.input_index = j := by
      obtain ⟨e, he, hej⟩ := hcov0 j (by rw [← hineq]; exact hjlt2)
      exact ⟨e, hinputseq ▸ he, hej⟩
    obtain ⟨b, hb, hblen⟩ := hcov j hjlt2 hcovj
    have hb2 : ins[j]? = some a := by rw [List.getElem?_eq_getElem hjlt, hja]
    rw [hb2] at hb
    have hab : a = b := Option.some.inj hb
    rw [hab, hblen]
  obtain ⟨r, hproc⟩ := ug_process_succeeds nd.ug ins nd.outputs sr ts
    g0.buffer_size o ho holen2 hsum
  have hshape2 : processNode ns sr ts nid = (match ns[nid]? with
    | none => .error "valid index"
    | some nd => (gatherInputs ns nid nd).bind (fun ins =>
        (nd.ug.process ins nd.outputs sr ts).bind (fun r =>
          Except.ok (ns.set nid
            { nd with ug := r.2, outputs := r.1 })))) := rfl
  have hred : processNode ns sr ts nid =
      .ok (ns.set nid { nd with ug := r.2, outputs := r.1 }) := by
    rw [hshape2]
    simp only [hget, hgather, hproc, Except.bind]
  refine ⟨_, hred, ?_, ?_⟩
  · obtain ⟨hon2, hin2, hsum2, o2, newOut, ho2, hnolen, houts2⟩ :=
      ug_process_ok nd.ug ins nd.outputs sr ts r.1 r.2 (by rw [hproc])
    have hnd2shape : nodeShape { nd with ug := r.2, outputs := r.1 } =
        nodeShape nd := by
      simp only [nodeShape]
      rw [hon2, hin2, hsum2]
    rw [List.map_set, hnd2shape]
    have hmapget : (ns.map nodeShape)[nid]? = some (nodeShape nd) := by
      rw [List.getElem?_map, hget]
      rfl
    rw [set_of_getElem_self _ _ _ hmapget]
    exact hinv.1
  · intro nd2 hmem2
    obtain ⟨hon2, hin2, hsum2, o2, newOut, ho2, hnolen, houts2⟩ :=
      ug_process_ok nd.ug ins nd.outputs sr ts r.1 r.2 (by rw [hproc])
    rcases List.mem_or_eq_of_mem_set hmem2 with hold | hnew
    · exact hinv.2 nd2 hold
    · subst hnew
      have ho2o : o2 = o := by
        rw [ho] at ho2
        exact (Option.some.inj ho2).symm
      constructor
      · show r.1.length = r.2.output_names.length
        rw [houts2, List.length_set, hon2]
        exact holen
      · intro b hb
        have hb2 : b ∈ r.1 := hb
        rw [houts2] at hb2
        rcases List.mem_or_eq_of_mem_set hb2 with hbo | hbn
        · exact hoblen b hbo
        · rw [hbn, hnolen, ho2o]
          exact hoblen o (mem_of_getElem_some ho)

lemma foldlM_processNode_inv (g0 : GenGraph) (hbs : 0 < g0.buffer_size)
    (hedges0 : ∀ (i : ℕ) (nd0 : GraphNode), g0.nodes[i]? = some nd0 → ∀ e ∈ nd0.inputs,
      e.src ≠ i ∧ e.src < g0.nodes.length ∧
      e.output_index < (g0.nodes.getD e.src default).ug.output_names.length ∧
      e.input_index < nd0.ug.input_names.length)
    (hfull0 : ∀ nd0 ∈ g0.nodes, ∀ m, nd0.ug = .sum m →
      ∀ j, j < nd0.ug.input_names.length → ∃ e ∈ nd0.inputs, e.input_index = j)
    (sr : Sample) (ts : ℕ) :
    ∀ (order : List ℕ) (ns : List GraphNode),
      (∀ x ∈ order, x < g0.nodes.length) → NodesInv g0 ns →
      ∃ ns2, order.foldlM (fun a o => processNode a sr ts o) ns = .ok ns2 ∧
        NodesInv g0 ns2
  | [], ns, _, hinv => ⟨ns, by rw [List.foldlM_nil]; rfl, hinv⟩
  | o :: rest, ns, hlt, hinv => by
    obtain ⟨mid, hstep, hinv2⟩ := processNode_inv g0 hbs hedges0 hfull0 ns hinv
      sr ts o (by rw [NodesInv.len hinv]; exact hlt o (List.mem_cons_self o rest))
    obtain ⟨ns2, hfold, hinv3⟩ := foldlM_processNode_inv g0 hbs hedges0 hfull0
      sr ts rest mid (fun x hx => hlt x (List.mem_cons_of_mem o hx)) hinv2
    refine ⟨ns2, ?_, hinv3⟩
    rw [List.foldlM_cons, hstep]
    simp only [Bind.bind, Except.bind]
    exact hfold

lemma split_name_label (s : String) :
    split_name (s ++ "." ++ "out") = some (s, "out") := by
  simp only [split_name]
  have hdata : (s ++ "." ++ "out").data = s.data ++ ('.' :: ['o', 'u', 't']) := by
    simp [String.data_append]
  rw [hdata]
  have hrev : (s.data ++ ('.' :: ['o', 'u', 't'])).reverse =
      't' :: 'u' :: 'o' :: '.' :: s.data.reverse := by
    simp [List.reverse_append]
  rw [hrev]
  have hfind : List.findIdx? (fun c => c = '.')
      ('t' :: 'u' :: 'o' :: '.' :: s.data.reverse) = some 3 := by
    have h1 : ∀ (a : Char) (l : List Char) (i : ℕ),
        List.findIdx? (fun c => c = '.') (a :: l) i =
          if (a = '.' : Bool) then some i
          else List.findIdx? (fun c => c = '.') l (i + 1) := fun a l i => rfl
    rw [h1, if_neg (by decide), h1, if_neg (by decide), h1, if_neg (by decide),
      h1, if_pos (by decide)]
  rw [hfind]
  show some (String.mk
      (('t' :: 'u' :: 'o' :: '.' :: s.data.reverse).drop (3 + 1)).reverse,
    String.mk (('t' :: 'u' :: 'o' :: '.' :: s.data.reverse).take 3).reverse) =
    some (s, "out")
  have hdrop : ('t' :: 'u' :: 'o' :: '.' :: s.data.reverse).drop (3 + 1) =
      s.data.reverse := rfl
  have htake : ('t' :: 'u' :: 'o' :: '.' :: s.data.reverse).take 3 =
      ['t', 'u', 'o'] := rfl
  rw [hdrop, htake, List.reverse_reverse]
  have hmk : String.mk s.data = s := by cases s; rfl
  rw [hmk]
  rfl

lemma lookupName_unique (l : List (String × ℕ))
    (hn : (l.map Prod.fst).Nodup) (k : String) (v : ℕ)
    (hmem : (k, v) ∈ l) : lookupName l k = some v := by
  induction l with
  | nil => cases hmem
  | cons p rest ih =>
    obtain ⟨k2, v2⟩ := p
    simp only [List.map_cons, List.nodup_cons] at hn
    rcases List.mem_cons.mp hmem with h | h
    · rw [show ((k2, v2) : String × ℕ) = (k, v) from h.symm]
      simp [lookupName]
    · have hk : ¬ k2 = k := by
        intro he
        refine hn.1 ?_
        have hmem2 : k ∈ rest.map Prod.fst := by
          have := List.mem_map_of_mem Prod.fst h
          exact this
        rw [he]
        exact hmem2
      simp only [lookupName, if_neg hk]
      exact ih hn.2 h

lemma get_outputs_map (g : GenGraph)
    (hlt : ∀ x ∈ g.get_execution_node_ids, x < g.nodes.length) :
    g.get_outputs = g.get_execution_node_ids.map (fun nid =>
      ((g.nodes.getD nid default).name ++ "." ++ "out",
       (g.nodes.getD nid default).outputs.getD 0 [])) := by
  have haux : ∀ (l : List ℕ) (acc : List (String × List Sample)),
      (∀ x ∈ l, x < g.nodes.length) →
      l.foldl
        (fun acc nid =>
          match g.nodes[nid]? with
          | none => acc
          | some nd =>
            acc ++ nd.ug.output_names.enum.map
              (fun (p : ℕ × String) => (nd.name ++ "." ++ p.2,
                nd.outputs.getD p.1 [])))
        acc =
      acc ++ l.map (fun nid =>
        ((g.nodes.getD nid default).name ++ "." ++ "out",
         (g.nodes.getD nid default).outputs.getD 0 [])) := by
    intro l
    induction l with
    | nil => intro acc _; simp
    | cons nid t ih =>
      intro acc hl
      have hnidlt : nid < g.nodes.length := hl nid (List.mem_cons_self nid t)
      have hget : g.nodes[nid]? = some (g.nodes.getD nid default) := by
        rw [List.getD_eq_getElem _ _ hnidlt]
        exact List.getElem?_eq_getElem hnidlt
      rw [List.foldl_cons]
      have hbody : (match g.nodes[nid]? with
          | none => acc
          | some nd =>
            acc ++ nd.ug.output_names.enum.map
              (fun (p : ℕ × String) => (nd.name ++ "." ++ p.2,
                nd.outputs.getD p.1 []))) =
          acc ++ [((g.nodes.getD nid default).name ++ "." ++ "out",
            (g.nodes.getD nid default).outputs.getD 0 [])] := by
        simp only [hget]
        rw [ug_output_names]
        rfl
      rw [hbody, ih _ (fun x hx => hl x (List.mem_cons_of_mem nid hx))]
      simp [List.append_assoc]
  have h2 := haux g.get_execution_node_ids [] hlt
  rw [List.nil_append] at h2
  exact h2

lemma string_label_inj {a b : String}
    (h : a ++ "." ++ "out" = b ++ "." ++ "out") : a = b := by
  have hd := congrArg String.data h
  simp only [String.data_append] at hd
  rw [List.append_assoc, List.append_assoc] at hd
  have hd2 := List.append_cancel_right hd
  exact String.ext hd2

lemma labels_nodup (g : GenGraph)
    (hid : ∀ i < g.nodes.length, (g.nodes.getD i default).id = i)
    (hnames : (g.nodes.map (fun nd => nd.name)).Nodup) :
    ((g.get_outputs).map Prod.fst).Nodup := by
  obtain ⟨hnd, hmem, _, _⟩ := exec_order_spec g hid
  rw [get_outputs_map g hmem, List.map_map]
  refine List.Nodup.map_on ?_ hnd
  intro x hx y hy hxy
  have hxlt : x < g.nodes.length := hmem x hx
  have hylt : y < g.nodes.length := hmem y hy
  simp only [Function.comp] at hxy
  have hname : (g.nodes.getD x default).name = (g.nodes.getD y default).name :=
    string_label_inj hxy
  have hx2 : (g.nodes.map (fun nd => nd.name)).get ⟨x, by simpa using hxlt⟩ =
      (g.nodes.getD x default).name := by
    rw [List.get_eq_getElem, List.getElem_map, List.getD_eq_getElem _ _ hxlt]
  have hy2 : (g.nodes.map (fun nd => nd.name)).get ⟨y, by simpa using hylt⟩ =
      (g.nodes.getD y default).name := by
    rw [List.get_eq_getElem, List.getElem_map, List.getD_eq_getElem _ _ hylt]
  have heq : (g.nodes.map (fun nd => nd.name)).get ⟨x, by simpa using hxlt⟩ =
      (g.nodes.map (fun nd => nd.name)).get ⟨y, by simpa using hylt⟩ := by
    rw [hx2, hy2, hname]
  rw [List.get_eq_getElem, List.get_eq_getElem] at heq
  exact hnames.getElem_inj_iff.mp heq

lemma foldl_insertEmptyKey (ls : List String) :
    ∀ (acc : List (String × List Sample)), ls.Nodup →
      (∀ k ∈ ls, ∀ p ∈ acc, p.1 ≠ k) →
      ls.foldl insertEmptyKey acc = acc ++ ls.map (fun k => (k, ([] : List Sample)))
  | acc, _, _ => by
    induction ls generalizing acc with
    | nil => simp
    | cons k t ih =>
      rename_i hnd hdis
      have hany : acc.any (fun p => p.1 = k) = false := by
        rw [List.any_eq_false]
        intro p hp
        simp only [decide_eq_true_eq]
        exact hdis k (List.mem_cons_self k t) p hp
      rw [List.foldl_cons]
      have hstep : insertEmptyKey acc k = acc ++ [(k, [])] := by
        simp only [insertEmptyKey, hany]
        rfl
      rw [hstep]
      rw [ih (acc ++ [(k, [])]) (List.Nodup.of_cons hnd) ?_]
      · simp [List.append_assoc]
      · intro k2 hk2 p hp
        rcases List.mem_append.mp hp with hpa | hpb
        · exact hdis k2 (List.mem_cons_of_mem k hk2) p hpa
        · have hpk : p = (k, []) := by simpa using hpb
          rw [hpk]
          intro he
          simp only at he
          rw [List.nodup_cons] at hnd
          exact hnd.1 (he ▸ hk2)

lemma NodesInv.ids {g0 : GenGraph} {ns : List GraphNode} (hinv : NodesInv g0 ns)
    (hid : ∀ i < g0.nodes.length, (g0.nodes.getD i default).id = i) :
    ∀ i < ns.length, (ns.getD i default).id = i := by
  intro i hi
  obtain ⟨nd, hget⟩ : ∃ nd, ns[i]? = some nd := ⟨_, List.getElem?_eq_getElem hi⟩
  obtain ⟨nd0, hget0, hsh⟩ := NodesInv.shape_at hinv i nd hget
  obtain ⟨hideq, _, _, _, _, _⟩ := nodeShape_parts hsh
  have hi0 : i < g0.nodes.length := by rw [← NodesInv.len hinv]; exact hi
  have h0 := hid i hi0
  have hgd0 : g0.nodes.getD i default = nd0 := by
    obtain ⟨hlt0, hg⟩ := List.getElem?_eq_some.mp hget0
    rw [List.getD_eq_getElem _ _ hlt0, hg]
  have hgd : ns.getD i default = nd := by
    obtain ⟨hlt0, hg⟩ := List.getElem?_eq_some.mp hget
    rw [List.getD_eq_getElem _ _ hlt0, hg]
  rw [hgd, hideq, ← hgd0]
  exact h0

lemma get_output_named_ok (g0 g : GenGraph)
    (hmap : g.name_to_node_id =
      (g0.nodes.map (fun nd => (nd.name, nd.id))).reverse)
    (hnames : (g0.nodes.map (fun nd => nd.name)).Nodup)
    (hid : ∀ i < g0.nodes.length, (g0.nodes.getD i default).id = i)
    (hinv : NodesInv g0 g.nodes)
    (i : ℕ) (hi : i < g0.nodes.length) :
    ∃ buf, g.get_output_named
        ((g0.nodes.getD i default).name ++ "." ++ "out") = .ok buf ∧
      buf.length = g0.buffer_size := by
  have hsplit := split_name_label (g0.nodes.getD i default).name
  have hkeys : (((g0.nodes.map (fun nd => (nd.name, nd.id))).reverse).map
      Prod.fst).Nodup := by
    rw [List.map_reverse]
    have hcomp : (g0.nodes.map (fun nd => (nd.name, nd.id))).map Prod.fst =
        g0.nodes.map (fun nd => nd.name) := by
      rw [List.map_map]
      rfl
    rw [hcomp, List.nodup_reverse]
    exact hnames
  have hlook : lookupName g.name_to_node_id (g0.nodes.getD i default).name =
      some i := by
    rw [hmap]
    refine lookupName_unique _ hkeys _ _ ?_
    rw [List.mem_reverse]
    have hmem : g0.nodes.getD i default ∈ g0.nodes := nodes_getD_mem _ _ hi
    have h2 := List.mem_map_of_mem (fun nd => (nd.name, nd.id)) hmem
    beta_reduce at h2
    rw [hid i hi] at h2
    exact h2
  have hglen : g.nodes.length = g0.nodes.length := NodesInv.len hinv
  obtain ⟨ndg, hndg⟩ : ∃ ndg, g.nodes[i]? = some ndg :=
    ⟨_, List.getElem?_eq_getElem (by omega)⟩
  obtain ⟨holen2, hoblen2⟩ := hinv.2 ndg (mem_of_getElem_some hndg)
  have hol1 : ndg.outputs.length = 1 := by
    rw [holen2, ug_output_names]
    rfl
  obtain ⟨buf, hbuf⟩ : ∃ buf, ndg.outputs[0]? = some buf :=
    ⟨_, List.getElem?_eq_getElem (by omega)⟩
  have hfi : ndg.ug.output_names.findIdx? (fun nm => nm = "out") = some 0 := by
    rw [ug_output_names]
    decide
  have hshape : g.get_output_named
      ((g0.nodes.getD i default).name ++ "." ++ "out") =
      (match split_name ((g0.nodes.getD i default).name ++ "." ++ "out") with
       | none => .error "Expected name.port"
       | some (node_name, output_name) =>
         match lookupName g.name_to_node_id node_name with
         | none => .error "key not found"
         | some nid =>
           match g.nodes[nid]? with
           | none => .error "index out of bounds"
           | some nd =>
             match nd.ug.output_names.findIdx? (fun nm => nm = output_name) with
             | none => .error "Invalid output name"
             | some idx =>
               match nd.outputs[idx]? with
               | none => .error "index out of bounds"
               | some buf => .ok buf) := rfl
  refine ⟨buf, ?_, hoblen2 buf (mem_of_getElem_some hbuf)⟩
  rw [hshape]
  simp only [hsplit, hlook, hndg, hfi, hbuf]

lemma recorder_mapM_ok (bs : ℕ) (g2 : GenGraph)
    (rec : List (String × List Sample))
    (h : ∀ p ∈ rec, ∃ buf, g2.get_output_by_label p.1 = .ok buf ∧
      buf.length = bs) :
    ∃ rec2, rec.mapM (fun lb => do
        pure (lb.1, lb.2 ++ (← g2.get_output_by_label lb.1))) = .ok rec2 ∧
      rec2.map Prod.fst = rec.map Prod.fst ∧
      ∀ q ∈ rec2, ∃ p ∈ rec, q.1 = p.1 ∧ q.2.length = p.2.length + bs := by
  induction rec with
  | nil =>
    refine ⟨[], by rw [List.mapM_nil]; rfl, rfl, ?_⟩
    intro q hq
    cases hq
  | cons p t ih =>
    obtain ⟨buf, hbuf, hlen⟩ := h p (List.mem_cons_self p t)
    obtain ⟨rec2, hmap, hfst, hq⟩ :=
      ih (fun q hq2 => h q (List.mem_cons_of_mem p hq2))
    have hstep : (do pure (p.1, p.2 ++ (← g2.get_output_by_label p.1)) :
        Except String (String × List Sample)) = .ok (p.1, p.2 ++ buf) := by
      simp only [Bind.bind, Except.bind, hbuf]
      rfl
    refine ⟨(p.1, p.2 ++ buf) :: rec2, ?_, ?_, ?_⟩
    · rw [List.mapM_cons, hmap, hstep]
      rfl
    · simp only [List.map_cons, hfst]
    · intro q hq2
      rcases List.mem_cons.mp hq2 with hq3 | hq3
      · refine ⟨p, List.mem_cons_self p t, by rw [hq3], ?_⟩
        rw [hq3]
        simp [hlen]
      · obtain ⟨p2, hp2, hqa, hqb⟩ := hq q hq3
        exact ⟨p2, List.mem_cons_of_mem p hp2, hqa, hqb⟩

lemma from_samples_loop (g0 : GenGraph) (hbs : 0 < g0.buffer_size)
    (hedges0 : ∀ (i : ℕ) (nd0 : GraphNode), g0.nodes[i]? = some nd0 →
      ∀ e ∈ nd0.inputs,
      e.src ≠ i ∧ e.src < g0.nodes.length ∧
      e.output_index < (g0.nodes.getD e.src default).ug.output_names.length ∧
      e.input_index < nd0.ug.input_names.length)
    (hfull0 : ∀ nd0 ∈ g0.nodes, ∀ m, nd0.ug = .sum m →
      ∀ j, j < nd0.ug.input_names.length → ∃ e ∈ nd0.inputs, e.input_index = j)
    (hmap0 : g0.name_to_node_id =
      (g0.nodes.map (fun nd => (nd.name, nd.id))).reverse)
    (hnames : (g0.nodes.map (fun nd => nd.name)).Nodup)
    (hid : ∀ i < g0.nodes.length, (g0.nodes.getD i default).id = i)
    (hlabels : ∀ k ∈ (g0.get_outputs).map Prod.fst, ∃ i, i < g0.nodes.length ∧
      k = (g0.nodes.getD i default).name ++ "." ++ "out") :
    ∀ (L : List ℕ) (g : GenGraph) (rec : List (String × List Sample)) (t : ℕ),
      GraphInv g0 g →
      rec.map Prod.fst = (g0.get_outputs).map Prod.fst →
      (∀ p ∈ rec, p.2.length = t * g0.buffer_size) →
      ∃ st : GenGraph × List (String × List Sample),
        L.foldlM
          (fun (st : GenGraph × List (String × List Sample)) _ => do
            let g2 ← st.1.process
            let rec2 ← st.2.mapM
              (fun (lb : String × List Sample) =>
                do pure (lb.1, lb.2 ++ (← g2.get_output_by_label lb.1)))
            pure (g2, rec2))
          (g, rec) = .ok st ∧
        GraphInv g0 st.1 ∧
        st.2.map Prod.fst = (g0.get_outputs).map Prod.fst ∧
        ∀ p ∈ st.2, p.2.length = (t + L.length) * g0.buffer_size := by
  intro L
  induction L with
  | nil =>
    intro g rec t hginv hfst hlens
    refine ⟨(g, rec), by rw [List.foldlM_nil]; rfl, hginv, hfst, ?_⟩
    intro p hp
    simpa using hlens p hp
  | cons x L ih =>
    intro g rec t hginv hfst hlens
    have hnodes : NodesInv g0 g.nodes := hginv.2.2
    have hidg : ∀ i < g.nodes.length, (g.nodes.getD i default).id = i :=
      NodesInv.ids hnodes hid
    obtain ⟨_, hmemlt, _, _⟩ := exec_order_spec g hidg
    obtain ⟨ns2, hfold, hinv2⟩ := foldlM_processNode_inv g0 hbs hedges0 hfull0
      g.sample_rate g.time_sample g.get_execution_node_ids g.nodes
      (fun y hy => by rw [← NodesInv.len hnodes]; exact hmemlt y hy) hnodes
    have hproc2 : g.process = .ok ({ g with nodes := ns2, time_sample := g.time_sample + g.buffer_size }) := by
      have hp : g.process = (List.foldlM
          (fun a o => processNode a g.sample_rate g.time_sample o)
          g.nodes g.get_execution_node_ids).bind
          (fun nodes2 => Except.ok ({ g with nodes := nodes2, time_sample := g.time_sample + g.buffer_size } : GenGraph)) := rfl
      rw [hp, hfold]
      rfl
    have hg2inv : GraphInv g0 ({ g with nodes := ns2, time_sample := g.time_sample + g.buffer_size }) :=
      ⟨hginv.1, hginv.2.1, hinv2⟩
    have hm2 : ({ g with nodes := ns2, time_sample := g.time_sample + g.buffer_size } : GenGraph).name_to_node_id =
        (g0.nodes.map (fun nd => (nd.name, nd.id))).reverse := by
      show g.name_to_node_id = _
      rw [hginv.2.1, hmap0]
    have hread : ∀ p ∈ rec, ∃ buf,
        ({ g with nodes := ns2, time_sample := g.time_sample + g.buffer_size } : GenGraph).get_output_by_label p.1 = .ok buf ∧
        buf.length = g0.buffer_size := by
      intro p hp
      have hpk : p.1 ∈ (g0.get_outputs).map Prod.fst := by
        rw [← hfst]
        exact List.mem_map_of_mem Prod.fst hp
      obtain ⟨i, hilt, hkey⟩ := hlabels p.1 hpk
      rw [hkey]
      exact get_output_named_ok g0 _ hm2 hnames hid hinv2 i hilt
    obtain ⟨rec2, hmapM, hfst2, hlens2⟩ :=
      recorder_mapM_ok g0.buffer_size _ rec hread
    have hstepeq : (do
        let g2 ← (g, rec).1.process
        let rec2 ← (g, rec).2.mapM
          (fun (lb : String × List Sample) =>
            do pure (lb.1, lb.2 ++ (← g2.get_output_by_label lb.1)))
        pure (g2, rec2)) =
        Except.ok ({ g with nodes := ns2, time_sample := g.time_sample + g.buffer_size }, rec2) := by
      show (do
        let g2 ← g.process
        let rec2 ← rec.mapM
          (fun (lb : String × List Sample) =>
            do pure (lb.1, lb.2 ++ (← g2.get_output_by_label lb.1)))
        pure (g2, rec2)) = _
      rw [hproc2]
      show (do
        let rr ← rec.mapM
          (fun (lb : String × List Sample) =>
            do pure (lb.1, lb.2 ++ (← ({ g with nodes := ns2, time_sample := g.time_sample + g.buffer_size } : GenGraph).get_output_by_label lb.1)))
        pure (({ g with nodes := ns2, time_sample := g.time_sample + g.buffer_size } : GenGraph), rr)) = _
      rw [hmapM]
      rfl
    have hlenrec : ∀ p ∈ rec2, p.2.length = (t + 1) * g0.buffer_size := by
      intro p hp
      obtain ⟨q, hq, hq1, hq2⟩ := hlens2 p hp
      rw [hq2, hlens q hq]
      ring
    obtain ⟨st, hfold2, hstinv, hstfst, hstlen⟩ := ih
      ({ g with nodes := ns2, time_sample := g.time_sample + g.buffer_size })
      rec2 (t + 1) hg2inv (by rw [hfst2, hfst]) hlenrec
    refine ⟨st, ?_, hstinv, hstfst, ?_⟩
    · rw [List.foldlM_cons, hstepeq]
      simp only [Bind.bind, Except.bind]
      exact hfold2
    · intro p hp
      have h2 := hstlen p hp
      rw [List.length_cons]
      have h3 : t + 1 + L.length = t + (L.length + 1) := by omega
      rw [← h3]
      exact h2

lemma ceil_mul_ge (N bs : ℕ) (hbs : 0 < bs) : N ≤ ((N + bs - 1) / bs) * bs := by
  have hdm := Nat.div_add_mod (N + bs - 1) bs
  have hmod : (N + bs - 1) % bs < bs := Nat.mod_lt _ hbs
  rw [Nat.mul_comm]
  generalize hR : (N + bs - 1) % bs = R at hdm hmod
  generalize hM : bs * ((N + bs - 1) / bs) = M at hdm ⊢
  omega

lemma foldr_max_const (N : ℕ) :
    ∀ (l : List ℕ), l ≠ [] → (∀ x ∈ l, x = N) → l.foldr max 0 = N
  | [], h, _ => absurd rfl h
  | [x], _, hall => by
    rw [List.foldr_cons, List.foldr_nil, hall x (by simp)]
    exact Nat.max_zero N
  | x :: y :: t, _, hall => by
    rw [List.foldr_cons, foldr_max_const N (y :: t) (by simp)
      (fun z hz => hall z (List.mem_cons_of_mem x hz)), hall x (by simp)]
    exact Nat.max_self N

/-- C7 amended: for every wellformed acyclic graph with at least one node,
nonzero block size, in-range edge port indices, and every UGSum input
connected, Recorder::from_samples(graph, None, N) succeeds for every N and
get_shape() returns exactly (number of declared output labels, N).  (The
unamended claim fails on graphs without captured labels, where the length
component is unwrap_or(0): see the counterexample.) -/
theorem recorder_shape_amended (g : GenGraph) (N : ℕ)
    (hwf : WF g) (hacyc : Acyclic g) (hne : g.nodes ≠ []) (hbs : 0 < g.buffer_size)
    (hoi : ∀ nd ∈ g.nodes, ∀ e ∈ nd.inputs,
      e.output_index < (g.nodes.getD e.src default).ug.output_names.length ∧
      e.input_index < nd.ug.input_names.length)
    (hfull : ∀ nd ∈ g.nodes, ∀ m, nd.ug = .sum m →
      ∀ j, j < nd.ug.input_names.length → ∃ e ∈ nd.inputs, e.input_index = j) :
    ∃ r, Recorder.from_samples g none N = .ok r ∧
      r.get_shape = (g.get_output_names.length, N) := by
  have hid0 := hwf.1
  have hnames0 := hwf.2.2.1
  have hmap0 := hwf.2.2.2.1
  have hedges0 : ∀ (i : ℕ) (nd0 : GraphNode), g.nodes[i]? = some nd0 →
      ∀ e ∈ nd0.inputs, e.src ≠ i ∧ e.src < g.nodes.length ∧
      e.output_index < (g.nodes.getD e.src default).ug.output_names.length ∧
      e.input_index < nd0.ug.input_names.length := by
    intro i nd0 hget e he
    have hmem : nd0 ∈ g.nodes := mem_of_getElem_some hget
    obtain ⟨ho1, ho2⟩ := hoi nd0 hmem e he
    refine ⟨?_, hwf.2.1 nd0 hmem e he, ho1, ho2⟩
    intro heq
    exact hacyc i (Relation.TransGen.single ⟨nd0, hget, e, he, heq⟩)
  obtain ⟨hordnd, hmemlt, _, _⟩ := exec_order_spec g hid0
  have hgo := get_outputs_map g hmemlt
  have hlabels : ∀ k ∈ (g.get_outputs).map Prod.fst, ∃ i, i < g.nodes.length ∧
      k = (g.nodes.getD i default).name ++ "." ++ "out" := by
    intro k hk
    rw [hgo, List.map_map] at hk
    obtain ⟨nid, hnid, hkeq⟩ := List.mem_map.mp hk
    exact ⟨nid, hmemlt nid hnid, hkeq.symm⟩
  have hlab_ne : (g.get_outputs).map Prod.fst ≠ [] := by
    have h0n : 0 < g.nodes.length := List.length_pos.mpr hne
    have h0in := exec_order_complete g hwf hacyc 0 h0n
    have hord_ne : g.get_execution_node_ids ≠ [] := by
      intro h
      rw [h] at h0in
      cases h0in
    rw [hgo]
    cases h : g.get_execution_node_ids with
    | nil => exact absurd h hord_ne
    | cons a t => simp [h]
  have hnodup_labels := labels_nodup g hid0 hnames0
  have hrec0 : ((g.get_outputs).map
        (fun (p : String × List Sample) => p.1)).foldl insertEmptyKey [] =
      ((g.get_outputs).map (fun (p : String × List Sample) => p.1)).map
        (fun k => (k, ([] : List Sample))) := by
    have h2 := foldl_insertEmptyKey
      ((g.get_outputs).map (fun (p : String × List Sample) => p.1)) []
      hnodup_labels (by intro k _ p hp; cases hp)
    simpa using h2
  have hginv : GraphInv g g := ⟨rfl, rfl, rfl, fun nd hm => hwf.2.2.2.2 nd hm⟩
  have hfst0 : (((g.get_outputs).map
        (fun (p : String × List Sample) => p.1)).foldl insertEmptyKey []).map
        Prod.fst = (g.get_outputs).map Prod.fst := by
    rw [hrec0, List.map_map, List.map_map]
    rfl
  have hlen0 : ∀ p ∈ ((g.get_outputs).map
      (fun (p : String × List Sample) => p.1)).foldl insertEmptyKey [],
      p.2.length = 0 * g.buffer_size := by
    rw [hrec0]
    intro p hp
    obtain ⟨k, hk, hpk⟩ := List.mem_map.mp hp
    rw [← hpk]
    simp
  obtain ⟨st, hfold, hstinv, hstfst, hstlen⟩ := from_samples_loop g hbs hedges0
    hfull hmap0 hnames0 hid0 hlabels
    (List.range ((N + g.buffer_size - 1) / g.buffer_size)) g
    (((g.get_outputs).map
      (fun (p : String × List Sample) => p.1)).foldl insertEmptyKey []) 0
    hginv hfst0 hlen0
  have hfs : Recorder.from_samples g none N =
      (if g.buffer_size = 0 then
        (.error "attempt to divide by zero" : Except String Recorder)
      else
        ((List.range ((N + g.buffer_size - 1) / g.buffer_size)).foldlM
          (fun (st : GenGraph × List (String × List Sample)) _ => do
            let g2 ← st.1.process
            let rec2 ← st.2.mapM
              (fun (lb : String × List Sample) =>
                do pure (lb.1, lb.2 ++ (← g2.get_output_by_label lb.1)))
            pure (g2, rec2))
          (g, ((g.get_outputs).map
            (fun (p : String × List Sample) => p.1)).foldl insertEmptyKey [])).bind
        (fun st => Except.ok { sample_rate := g.sample_rate, recorded := st.2.map (fun (lb : String × List Sample) => (lb.1, lb.2.take N)), output_names := st.1.get_node_output_names })) := rfl
  refine ⟨{ sample_rate := g.sample_rate, recorded := st.2.map (fun lb => (lb.1, lb.2.take N)), output_names := st.1.get_node_output_names }, ?_, ?_⟩
  · rw [hfs, if_neg (by omega), hfold]
    rfl
  · simp only [Recorder.get_shape]
    have hlen1 : (st.2.map (fun lb => (lb.1, lb.2.take N))).length =
        g.get_output_names.length := by
      rw [List.length_map]
      have h2 := congrArg List.length hstfst
      simp only [List.length_map] at h2
      rw [h2]
      show g.get_outputs.length = ((g.get_outputs).map (fun p => p.1)).length
      rw [List.length_map]
    have hmax : ((st.2.map (fun lb => (lb.1, lb.2.take N))).map
        (fun lb => lb.2.length)).foldr max 0 = N := by
      rw [List.map_map]
      refine foldr_max_const N _ ?_ ?_
      · intro hnil
        cases hst2 : st.2 with
        | nil =>
          rw [hst2] at hstfst
          simp only [List.map_nil] at hstfst
          exact hlab_ne hstfst.symm
        | cons q t =>
          rw [hst2] at hnil
          simp at hnil
      · intro x hx
        obtain ⟨q, hq, hqx⟩ := List.mem_map.mp hx
        rw [← hqx]
        show (q.2.take N).length = N
        rw [List.length_take]
        have hql : q.2.length =
            ((N + g.buffer_size - 1) / g.buffer_size) * g.buffer_size := by
          rw [hstlen q hq]
          simp
        have hTN : N ≤ q.2.length := by
          rw [hql]
          exact ceil_mul_ge N g.buffer_size hbs
        exact Nat.min_eq_left hTN
    rw [hlen1, hmax]

theorem recorder_shape_amended_witness :
    ∃ r, Recorder.from_samples wgTwo none 5 = .ok r ∧
      r.get_shape = (wgTwo.get_output_names.length, 5) := by
  refine recorder_shape_amended wgTwo 5 (by decide) ?_ (by decide) (by decide)
    (by decide) ?_
  · refine acyclic_of_lt wgTwo ?_
    intro s d h
    obtain ⟨nd, hnd, e, he, hs⟩ := h
    exfalso
    have hemp : ∀ nd2 ∈ wgTwo.nodes, nd2.inputs = [] := by decide
    have hmem : nd ∈ wgTwo.nodes := mem_of_getElem_some hnd
    rw [hemp nd hmem] at he
    cases he
  · intro nd hmem m hm
    have hall : ∀ nd2 ∈ wgTwo.nodes, sumArity nd2.ug = none := by decide
    have h1 := hall nd hmem
    rw [hm] at h1
    exact absurd h1 (by simp [sumArity])

end Ampullator
